import Mathlib

/-!
Fixed-block pool allocator (`MyAllocator<T, BlockSize>`, `src/main.cpp`)

A shallow embedding of the allocator of `src/main.cpp` and of the system memory
provider (`::operator new` / `::operator delete`) it runs against.

Modelling decisions

* `BlockSize` and `sizeof(T)` are the template parameters of the class; every
  function below takes them as explicit arguments `BlockSize sizeofT : Nat`.
* An address (`T*`) is a natural number naming the start of a block.
* `std::vector<pointer> free_blocks` is a `List Addr`; `push_back` appends at the
  end, `back` reads the last element, `pop_back` drops it.  The functions of
  `Lab4` proper describe the calls in which every `push_back` finds room in the
  buffer of the vector or is granted its growth, and leave the buffer out of the
  runtime.  The namespace `Lab4.Buffered` repeats the allocator with the buffer
  of the vector: there a `push_back` that needs a larger buffer asks the provider
  for it and can be refused.
* A call either returns normally, throws `std::bad_alloc` (`outOfMemory`) or has
  undefined behaviour (`undefined`: `back()` on an empty vector, `operator
  delete` on an address that is not reserved).  Every function returns the
  outcome together with the state it leaves behind, because an exception thrown
  by the provider in the middle of `expand` leaves the blocks pushed so far in
  `free_blocks`.
* `size_t` arithmetic is arithmetic modulo `2 ^ 64`.
* `MyContainer<int, MyAllocator<int, BlockSize>>` is modelled with the storage
  contents as a separate `Memory`; `factorial` is modelled with a bound on the
  number of nested calls and with signed overflow as undefined behaviour.
-/

namespace Lab4

/-- An address: the start of a block of storage. -/
abbrev Addr := Nat

/-- Number of values of `size_t`. -/
def SIZE_MOD : Nat := 2 ^ 64

/-- How a call ends: normal return, `std::bad_alloc`, or undefined behaviour. -/
inductive Outcome (α : Type) where
  | ok (value : α)
  | outOfMemory
  | undefined
  deriving DecidableEq, Repr

/-- The part of the process state outside the allocator object.

* `live`: the blocks currently reserved from the system provider, each with its
  address and its size in bytes, in reservation order;
* `script`: what the provider will answer to the coming reservation requests:
  `none` is a refusal (`std::bad_alloc`), `some hint` a success at the first
  address from `hint` upwards that is not reserved; an exhausted script refuses;
* `expansions`: instrumentation, the number of calls of `MyAllocator::expand`
  made so far. -/
structure Runtime where
  live : List (Addr × Nat)
  script : List (Option Addr)
  expansions : Nat
  deriving DecidableEq, Repr

/-- Addresses of the blocks currently reserved from the provider. -/
def Runtime.addrs (rt : Runtime) : List Addr := rt.live.map Prod.fst

/-- Size in bytes of the reserved block that starts at `p`, if there is one. -/
def Runtime.blockSize (rt : Runtime) (p : Addr) : Option Nat :=
  (rt.live.find? (fun b => b.1 == p)).map Prod.snd

/-- Number of coming reservation requests that succeed before the first refusal. -/
def Runtime.successes (rt : Runtime) : Nat :=
  (rt.script.takeWhile Option.isSome).length

/-- First address from `a` upwards that is not in `used`, looking at `fuel + 1`
candidates (`used.length` is always enough fuel). -/
def freshFrom (used : List Addr) : Nat → Addr → Addr
  | 0, a => a
  | fuel + 1, a => if a ∈ used then freshFrom used fuel (a + 1) else a

/-- `::operator new(bytes)`: refuses, or reserves a block of `bytes` bytes at an
address that is not the address of any reserved block. -/
def operatorNew (bytes : Nat) (rt : Runtime) : Option Addr × Runtime :=
  match rt.script with
  | [] => (none, rt)
  | none :: rest => (none, { rt with script := rest })
  | some hint :: rest =>
    let p := freshFrom rt.addrs rt.addrs.length hint
    (some p, { rt with live := rt.live ++ [(p, bytes)], script := rest })

/-- `::operator delete(p)`: releases the reserved block at `p`; undefined when no
reserved block starts at `p`. -/
def operatorDelete (p : Addr) (rt : Runtime) : Outcome Unit × Runtime :=
  if p ∈ rt.addrs then
    (.ok (), { rt with live := rt.live.filter (fun b => b.1 != p) })
  else
    (.undefined, rt)

/-- The allocator object: its only data member is `free_blocks`. -/
structure MyAllocator where
  free_blocks : List Addr
  deriving DecidableEq, Repr

/-- The loop of `MyAllocator::expand` with `k` iterations left: each iteration
reserves one block of `sizeof(T)` bytes and pushes its address; a refusal of the
provider leaves the loop with the blocks pushed so far.  The `push_back` itself
is taken to succeed; `Buffered.expandLoop` has the case where it does not. -/
def expandLoop (sizeofT : Nat) :
    Nat → MyAllocator → Runtime → Outcome Unit × MyAllocator × Runtime
  | 0, a, rt => (.ok (), a, rt)
  | k + 1, a, rt =>
    match operatorNew sizeofT rt with
    | (none, rt1) => (.outOfMemory, a, rt1)
    | (some p, rt1) => expandLoop sizeofT k ⟨a.free_blocks ++ [p]⟩ rt1

/-- `MyAllocator::expand()`: `BlockSize` iterations of the loop. -/
def expand (BlockSize sizeofT : Nat) (a : MyAllocator) (rt : Runtime) :
    Outcome Unit × MyAllocator × Runtime :=
  expandLoop sizeofT BlockSize a { rt with expansions := rt.expansions + 1 }

/-- The end of `MyAllocator::allocate`: `free_blocks.back()` then `pop_back()`. -/
def takeBack (a : MyAllocator) (rt : Runtime) : Outcome Addr × MyAllocator × Runtime :=
  match a.free_blocks.getLast? with
  | none => (.undefined, a, rt)
  | some result => (.ok result, ⟨a.free_blocks.dropLast⟩, rt)

/-- `MyAllocator::allocate(n)`. -/
def allocate (BlockSize sizeofT n : Nat) (a : MyAllocator) (rt : Runtime) :
    Outcome Addr × MyAllocator × Runtime :=
  if n > BlockSize then
    match operatorNew ((n * sizeofT) % SIZE_MOD) rt with
    | (none, rt1) => (.outOfMemory, a, rt1)
    | (some p, rt1) => (.ok p, a, rt1)
  else if a.free_blocks.isEmpty then
    match expand BlockSize sizeofT a rt with
    | (.ok (), a1, rt1) => takeBack a1 rt1
    | (.outOfMemory, a1, rt1) => (.outOfMemory, a1, rt1)
    | (.undefined, a1, rt1) => (.undefined, a1, rt1)
  else
    takeBack a rt

/-- `MyAllocator::deallocate(p, n)`.  The `push_back` of the pooled branch is taken
to succeed; `Buffered.deallocate` has the case where it does not. -/
def deallocate (BlockSize : Nat) (p : Addr) (n : Nat) (a : MyAllocator) (rt : Runtime) :
    Outcome Unit × MyAllocator × Runtime :=
  if n > BlockSize then
    match operatorDelete p rt with
    | (r, rt1) => (r, a, rt1)
  else
    (.ok (), ⟨a.free_blocks ++ [p]⟩, rt)

/-- A freshly constructed allocator (`MyAllocator() noexcept = default`). -/
def MyAllocator.fresh : MyAllocator := ⟨[]⟩

/-- A runtime with nothing reserved whose provider grants the next `k` requests
(at the first unreserved address from `base` upwards) and refuses afterwards. -/
def Runtime.granting (k base : Nat) : Runtime :=
  ⟨[], List.replicate k (some base), 0⟩

/-- The outcomes of `k` successive calls `allocate(n)`, with the state they leave;
the caller goes on after a failed call. -/
def allocateMany (BlockSize sizeofT n : Nat) :
    Nat → MyAllocator → Runtime → List (Outcome Addr) × MyAllocator × Runtime
  | 0, a, rt => ([], a, rt)
  | k + 1, a, rt =>
    match allocate BlockSize sizeofT n a rt with
    | (r, a1, rt1) =>
      match allocateMany BlockSize sizeofT n k a1 rt1 with
      | (rs, a2, rt2) => (r :: rs, a2, rt2)

/-- The outcomes of the calls `deallocate(p, n)` for the addresses `p` of a list,
in the order of the list, with the state they leave. -/
def deallocateAll (BlockSize n : Nat) :
    List Addr → MyAllocator → Runtime → List (Outcome Unit) × MyAllocator × Runtime
  | [], a, rt => ([], a, rt)
  | p :: ps, a, rt =>
    match deallocate BlockSize p n a rt with
    | (r, a1, rt1) =>
      match deallocateAll BlockSize n ps a1 rt1 with
      | (rs, a2, rt2) => (r :: rs, a2, rt2)

/-- A call made by the client of one allocator. -/
inductive Op where
  | alloc (n : Nat)
  | dealloc (p : Addr) (n : Nat)
  deriving DecidableEq, Repr

/-- One allocator with the runtime it uses and, as bookkeeping, the addresses that
`allocate` has handed out and that have not been passed to `deallocate` since. -/
structure World where
  pool : MyAllocator
  rt : Runtime
  out : List Addr
  deriving DecidableEq, Repr

/-- A freshly constructed allocator in a runtime `rt`, nothing handed out. -/
def World.init (rt : Runtime) : World := ⟨MyAllocator.fresh, rt, []⟩

/-- One client call.  There is no next state when the client passes to
`deallocate` an address that is not handed out (out of contract) or when the call
has undefined behaviour; a call that throws `std::bad_alloc` leaves the state the
exception left behind. -/
def step (BlockSize sizeofT : Nat) (w : World) : Op → Option World
  | .alloc n =>
    match allocate BlockSize sizeofT n w.pool w.rt with
    | (.ok p, a1, rt1) => some ⟨a1, rt1, w.out ++ [p]⟩
    | (.outOfMemory, a1, rt1) => some ⟨a1, rt1, w.out⟩
    | (.undefined, _, _) => none
  | .dealloc p n =>
    if p ∈ w.out then
      match deallocate BlockSize p n w.pool w.rt with
      | (.ok (), a1, rt1) => some ⟨a1, rt1, w.out.erase p⟩
      | (_, _, _) => none
    else
      none

/-- A sequence of client calls. -/
def run (BlockSize sizeofT : Nat) : World → List Op → Option World
  | w, [] => some w
  | w, op :: ops =>
    match step BlockSize sizeofT w op with
    | none => none
    | some w1 => run BlockSize sizeofT w1 ops

/-- The addresses `l` are pairwise distinct and each is the address of a block in
`used`.  With `l` the free list followed by the handed-out addresses and `used`
the reserved addresses, this is the invariant of the allocator. -/
def Good (l used : List Addr) : Prop := l.Nodup ∧ ∀ p ∈ l, p ∈ used

instance (l used : List Addr) : Decidable (Good l used) := by
  unfold Good
  infer_instance

/-- The count argument of a client call. -/
def Op.count : Op → Nat
  | .alloc n => n
  | .dealloc _ n => n

/-- `operator==` on two allocators of the same `BlockSize`, of element types of
sizes `sizeofT` and `sizeofU`: `return true`. -/
def operatorEq (_BlockSize _sizeofT _sizeofU : Nat) (_a _b : MyAllocator) : Bool := true

/-- `operator!=` on two allocators of the same `BlockSize`: `return false`. -/
def operatorNe (_BlockSize _sizeofT _sizeofU : Nat) (_a _b : MyAllocator) : Bool := false

/-- The implicitly declared copy constructor `MyAllocator(const MyAllocator&)`:
the class declares none (a constructor template is never a copy constructor), so
the copy is member-wise and `free_blocks` is copied. -/
def MyAllocator.copy (a : MyAllocator) : MyAllocator := ⟨a.free_blocks⟩

/-- The converting constructor
`template <typename U> MyAllocator(const MyAllocator<U, BlockSize> &) noexcept {}`:
its body is empty, so `free_blocks` is default-initialised (empty). -/
def MyAllocator.convert (_other : MyAllocator) : MyAllocator := ⟨[]⟩

/-- Contents of storage: the `int` constructed at an address, if any. -/
abbrev Memory := Addr → Option Int

/-- Storage in which nothing has been constructed. -/
def Memory.blank : Memory := fun _ => none

/-- `MyAllocator::construct(p, value)` for an `int`: placement-new of `value` at `p`. -/
def construct (p : Addr) (value : Int) (mem : Memory) : Memory :=
  fun q => if q = p then some value else mem q

/-- `MyContainer<int, MyAllocator<int, BlockSize>>`.  `size_` is a `size_t`; it is
kept as a natural number without wrap-around, because it counts elements that
occupy pairwise distinct storage of a 64-bit address space. -/
structure MyContainer where
  alloc_ : MyAllocator
  elements_ : List Addr
  size_ : Nat

/-- The constructor `MyContainer(const allocator_type &alloc)`: `alloc_(alloc)`
copy-constructs the allocator, `elements_` is empty, `size_(0)`. -/
def MyContainer.init (alloc : MyAllocator) : MyContainer :=
  ⟨MyAllocator.copy alloc, [], 0⟩

/-- `MyContainer::push_back(value)`: allocate one slot, construct `value` in it,
push the address on `elements_`, increment `size_`.  When `allocate` throws,
nothing but the allocator has changed. -/
def MyContainer.push_back (BlockSize sizeofT : Nat) (value : Int) (c : MyContainer)
    (rt : Runtime) (mem : Memory) : Outcome Unit × MyContainer × Runtime × Memory :=
  match allocate BlockSize sizeofT 1 c.alloc_ rt with
  | (.ok ptr, a1, rt1) =>
    (.ok (), ⟨a1, c.elements_ ++ [ptr], c.size_ + 1⟩, rt1, construct ptr value mem)
  | (.outOfMemory, a1, rt1) => (.outOfMemory, ⟨a1, c.elements_, c.size_⟩, rt1, mem)
  | (.undefined, a1, rt1) => (.undefined, ⟨a1, c.elements_, c.size_⟩, rt1, mem)

/-- `MyContainer::size()`. -/
def MyContainer.size (c : MyContainer) : Nat := c.size_

/-- `MyContainer::empty()`. -/
def MyContainer.empty (c : MyContainer) : Bool := c.size_ == 0

/-- What `MyContainer::print()` reads: `*ptr` for every `ptr` of `elements_`, in
stored order. -/
def MyContainer.print (c : MyContainer) (mem : Memory) : List (Option Int) :=
  c.elements_.map mem

/-- The calls `push_back(v)` for the values `v` of a list, in order: the outcomes
and the state they leave. -/
def pushAll (BlockSize sizeofT : Nat) :
    List Int → MyContainer → Runtime → Memory →
      List (Outcome Unit) × MyContainer × Runtime × Memory
  | [], c, rt, mem => ([], c, rt, mem)
  | v :: vs, c, rt, mem =>
    match MyContainer.push_back BlockSize sizeofT v c rt mem with
    | (r, c1, rt1, mem1) =>
      match pushAll BlockSize sizeofT vs c1 rt1 mem1 with
      | (rs, c2, rt2, mem2) => (r :: rs, c2, rt2, mem2)

/-- Least value of `int` (32 bits). -/
def INT_MIN : Int := -2147483648

/-- Greatest value of `int` (32 bits). -/
def INT_MAX : Int := 2147483647

/-- `int factorial(int n)` run with a bound `fuel` on the number of nested calls:
`none` when the bound is reached, otherwise the outcome of the call.  A product
that does not fit in `int` is signed overflow (`undefined`). -/
def factorial : Nat → Int → Option (Outcome Int)
  | 0, _ => none
  | fuel + 1, n =>
    if n ≤ 1 then some (.ok 1)
    else
      match factorial fuel (n - 1) with
      | none => none
      | some (.ok r) =>
        if INT_MIN ≤ n * r ∧ n * r ≤ INT_MAX then some (.ok (n * r)) else some .undefined
      | some .outOfMemory => some .outOfMemory
      | some .undefined => some .undefined

/-- The loop of `main` that fills a map: `for (int i = 0; i < 10; ++i)
map[i] = factorial(i);`, as the list of keys with the outcome stored for each. -/
def fillMap (fuel : Nat) : List (Int × Option (Outcome Int)) :=
  (List.range 10).map (fun i => ((i : Int), factorial fuel (i : Int)))

namespace Buffered

/-- How a call of a `noexcept` function ends: normal return, `std::terminate`
(an exception reached the `noexcept` boundary), or undefined behaviour. -/
inductive NoexceptOutcome where
  | returned
  | terminated
  | undefined
  deriving DecidableEq, Repr

/-- The value of `sizeof(pointer)`, the size of one element of `free_blocks`. -/
def sizeofPointer : Nat := 8

/-- A growth policy of `std::vector`: capacity `0` grows to `1`, any other capacity
doubles.  The policy is left to the library; the functions below take it as the
argument `grow`. -/
def doubling (c : Nat) : Nat := if c = 0 then 1 else 2 * c

/-- The vector `std::vector<pointer>` with its buffer: the elements, the capacity
of the buffer, and the address of the buffer (none as long as nothing was ever
pushed). -/
structure PtrVector where
  items : List Addr
  capacity : Nat
  buffer : Option Addr
  deriving DecidableEq, Repr

/-- A default-constructed vector: no element, no buffer. -/
def PtrVector.empty : PtrVector := ⟨[], 0, none⟩

/-- The call `std::vector::push_back(p)`.  With room in the buffer the element is
appended.  Otherwise a buffer of `grow capacity` pointers is reserved with
`::operator new`: on refusal `std::bad_alloc` is thrown and the vector is
unchanged; on success the elements move to the new buffer, `p` is appended and
the old buffer is released with `::operator delete`. -/
def PtrVector.push_back (grow : Nat → Nat) (v : PtrVector) (p : Addr) (rt : Runtime) :
    Outcome Unit × PtrVector × Runtime :=
  if v.items.length < v.capacity then
    (.ok (), ⟨v.items ++ [p], v.capacity, v.buffer⟩, rt)
  else
    match operatorNew ((grow v.capacity * sizeofPointer) % SIZE_MOD) rt with
    | (none, rt1) => (.outOfMemory, v, rt1)
    | (some b, rt1) =>
      match v.buffer with
      | none => (.ok (), ⟨v.items ++ [p], grow v.capacity, some b⟩, rt1)
      | some old =>
        match operatorDelete old rt1 with
        | (.ok (), rt2) => (.ok (), ⟨v.items ++ [p], grow v.capacity, some b⟩, rt2)
        | (.outOfMemory, rt2) => (.undefined, ⟨v.items ++ [p], grow v.capacity, some b⟩, rt2)
        | (.undefined, rt2) => (.undefined, ⟨v.items ++ [p], grow v.capacity, some b⟩, rt2)

/-- The allocator object, `free_blocks` with its buffer. -/
structure MyAllocator where
  free_blocks : PtrVector
  deriving DecidableEq, Repr

/-- A freshly constructed allocator. -/
def MyAllocator.fresh : MyAllocator := ⟨PtrVector.empty⟩

/-- The loop of `MyAllocator::expand` with `k` iterations left.  Each iteration
reserves a block with `::operator new(sizeof(T))` and then calls
`free_blocks.push_back` on its address; either call can throw `std::bad_alloc`,
and when `push_back` throws the block just reserved is in no list.  The last
component is instrumentation: the addresses of the blocks this loop reserved. -/
def expandLoop (grow : Nat → Nat) (sizeofT : Nat) :
    Nat → MyAllocator → Runtime → Outcome Unit × MyAllocator × Runtime × List Addr
  | 0, a, rt => (.ok (), a, rt, [])
  | k + 1, a, rt =>
    match operatorNew sizeofT rt with
    | (none, rt1) => (.outOfMemory, a, rt1, [])
    | (some p, rt1) =>
      match PtrVector.push_back grow a.free_blocks p rt1 with
      | (.ok (), v, rt2) =>
        match expandLoop grow sizeofT k ⟨v⟩ rt2 with
        | (r, a3, rt3, ps) => (r, a3, rt3, p :: ps)
      | (.outOfMemory, v, rt2) => (.outOfMemory, ⟨v⟩, rt2, [p])
      | (.undefined, v, rt2) => (.undefined, ⟨v⟩, rt2, [p])

/-- `MyAllocator::expand()`: `BlockSize` iterations of the loop. -/
def expand (grow : Nat → Nat) (BlockSize sizeofT : Nat) (a : MyAllocator) (rt : Runtime) :
    Outcome Unit × MyAllocator × Runtime × List Addr :=
  expandLoop grow sizeofT BlockSize a { rt with expansions := rt.expansions + 1 }

/-- The end of `MyAllocator::allocate`: `free_blocks.back()` then `pop_back()`; the
buffer stays as it is. -/
def takeBack (a : MyAllocator) (rt : Runtime) : Outcome Addr × MyAllocator × Runtime :=
  match a.free_blocks.items.getLast? with
  | none => (.undefined, a, rt)
  | some result =>
    (.ok result,
      ⟨⟨a.free_blocks.items.dropLast, a.free_blocks.capacity, a.free_blocks.buffer⟩⟩, rt)

/-- `MyAllocator::allocate(n)`.  The last component is instrumentation: the
addresses of the pool blocks reserved by the expansion this call made, if any. -/
def allocate (grow : Nat → Nat) (BlockSize sizeofT n : Nat) (a : MyAllocator)
    (rt : Runtime) : Outcome Addr × MyAllocator × Runtime × List Addr :=
  if n > BlockSize then
    match operatorNew ((n * sizeofT) % SIZE_MOD) rt with
    | (none, rt1) => (.outOfMemory, a, rt1, [])
    | (some p, rt1) => (.ok p, a, rt1, [])
  else if a.free_blocks.items.isEmpty then
    match expand grow BlockSize sizeofT a rt with
    | (.ok (), a1, rt1, ps) =>
      match takeBack a1 rt1 with
      | (r, a2, rt2) => (r, a2, rt2, ps)
    | (.outOfMemory, a1, rt1, ps) => (.outOfMemory, a1, rt1, ps)
    | (.undefined, a1, rt1, ps) => (.undefined, a1, rt1, ps)
  else
    match takeBack a rt with
    | (r, a2, rt2) => (r, a2, rt2, [])

/-- `MyAllocator::deallocate(p, n) noexcept`: a `std::bad_alloc` thrown by
`free_blocks.push_back(p)` cannot leave the function, `std::terminate` is
called. -/
def deallocate (grow : Nat → Nat) (BlockSize : Nat) (p : Addr) (n : Nat)
    (a : MyAllocator) (rt : Runtime) : NoexceptOutcome × MyAllocator × Runtime :=
  if n > BlockSize then
    match operatorDelete p rt with
    | (.ok (), rt1) => (.returned, a, rt1)
    | (.outOfMemory, rt1) => (.undefined, a, rt1)
    | (.undefined, rt1) => (.undefined, a, rt1)
  else
    match PtrVector.push_back grow a.free_blocks p rt with
    | (.ok (), v, rt1) => (.returned, ⟨v⟩, rt1)
    | (.outOfMemory, v, rt1) => (.terminated, ⟨v⟩, rt1)
    | (.undefined, v, rt1) => (.undefined, ⟨v⟩, rt1)

/-- One allocator with the runtime it uses and, as bookkeeping: `out`, the
addresses handed out and not given back since; `reserved`, the addresses of the
pool blocks reserved by the expansions so far, in order; `failures`, the number
of calls that ended with `std::bad_alloc`. -/
structure World where
  pool : MyAllocator
  rt : Runtime
  out : List Addr
  reserved : List Addr
  failures : Nat
  deriving DecidableEq, Repr

/-- A freshly constructed allocator in a runtime `rt`. -/
def World.init (rt : Runtime) : World := ⟨MyAllocator.fresh, rt, [], [], 0⟩

/-- One client call.  There is no next state when the client passes to
`deallocate` an address that is not handed out, when the call has undefined
behaviour, or when `deallocate` ends in `std::terminate`; an `allocate` that
throws `std::bad_alloc` leaves the state the exception left behind. -/
def step (grow : Nat → Nat) (BlockSize sizeofT : Nat) (w : World) : Op → Option World
  | .alloc n =>
    match allocate grow BlockSize sizeofT n w.pool w.rt with
    | (.ok p, a1, rt1, ps) => some ⟨a1, rt1, w.out ++ [p], w.reserved ++ ps, w.failures⟩
    | (.outOfMemory, a1, rt1, ps) => some ⟨a1, rt1, w.out, w.reserved ++ ps, w.failures + 1⟩
    | (.undefined, _, _, _) => none
  | .dealloc p n =>
    if p ∈ w.out then
      match deallocate grow BlockSize p n w.pool w.rt with
      | (.returned, a1, rt1) => some ⟨a1, rt1, w.out.erase p, w.reserved, w.failures⟩
      | (.terminated, _, _) => none
      | (.undefined, _, _) => none
    else
      none

/-- A sequence of client calls. -/
def run (grow : Nat → Nat) (BlockSize sizeofT : Nat) : World → List Op → Option World
  | w, [] => some w
  | w, op :: ops =>
    match step grow BlockSize sizeofT w op with
    | none => none
    | some w1 => run grow BlockSize sizeofT w1 ops

/-- The pool blocks `S` are all reserved, with `sizeof(T)` bytes each, and the
buffer of the vector is a reserved block that is none of them. -/
def Kept (sizeofT : Nat) (S : List Addr) (v : PtrVector) (rt : Runtime) : Prop :=
  (∀ q ∈ S, (q, sizeofT) ∈ rt.live) ∧ (∀ b, v.buffer = some b → b ∈ rt.addrs ∧ b ∉ S)

/-- Accounting of the pool in a state `w` reached from a fresh allocator started
in the runtime `rt0`: every pool block reserved so far is still reserved; the
free and the handed-out addresses are pool blocks and are no more numerous than
the pool blocks; the pool blocks are at most `BlockSize` per expansion; and as
long as no call has failed, the pool blocks are exactly the free and the
handed-out addresses and are exactly `BlockSize` per expansion. -/
def Accounted (BlockSize sizeofT : Nat) (rt0 : Runtime) (w : World) : Prop :=
  Kept sizeofT w.reserved w.pool.free_blocks w.rt
    ∧ (w.pool.free_blocks.items ++ w.out).length ≤ w.reserved.length
    ∧ (∀ p ∈ w.pool.free_blocks.items ++ w.out, p ∈ w.reserved)
    ∧ rt0.expansions ≤ w.rt.expansions
    ∧ w.reserved.length ≤ BlockSize * (w.rt.expansions - rt0.expansions)
    ∧ (w.failures = 0 →
        (w.pool.free_blocks.items ++ w.out).Perm w.reserved
          ∧ w.reserved.length = BlockSize * (w.rt.expansions - rt0.expansions))

end Buffered

end Lab4

open Lab4

/-! ## C1: storage returned by `allocate(n)` -/

/-- C1 (the code falls short of the claim): with `BlockSize = 10` and
`sizeof(T) = 4`, `allocate(2)` on a freshly constructed allocator, with a provider
that grants every request, returns address `109`, which is the start of a reserved
block of 4 bytes, fewer than the `2 * 4` bytes two values of `T` need. -/
theorem allocate_two_returns_single_slot :
    allocate 10 4 2 MyAllocator.fresh (Runtime.granting 10 100)
        = (.ok 109, ⟨[100, 101, 102, 103, 104, 105, 106, 107, 108]⟩,
            ⟨[(100, 4), (101, 4), (102, 4), (103, 4), (104, 4), (105, 4), (106, 4),
              (107, 4), (108, 4), (109, 4)], [], 1⟩)
      ∧ (allocate 10 4 2 MyAllocator.fresh (Runtime.granting 10 100)).2.2.blockSize 109
          = some 4
      ∧ ¬ (2 * 4 ≤ 4) := by
  refine ⟨by decide, by decide, by decide⟩

/-! ## C2: last-in-first-out reuse of one address -/

/-- C2 as stated fails for `BlockSize = 0`: there `allocate(1)` and
`deallocate(p, 1)` take the provider path, and the second `allocate(1)` returns
whatever the provider answers, here `200` and not `p = 100`. -/
theorem reuse_fails_for_BlockSize_zero :
    allocate 0 4 1 MyAllocator.fresh ⟨[], [some 100, some 200], 0⟩
        = (.ok 100, MyAllocator.fresh, ⟨[(100, 4)], [some 200], 0⟩)
      ∧ deallocate 0 100 1 MyAllocator.fresh ⟨[(100, 4)], [some 200], 0⟩
        = (.ok (), MyAllocator.fresh, ⟨[], [some 200], 0⟩)
      ∧ (allocate 0 4 1 MyAllocator.fresh ⟨[], [some 200], 0⟩).1 = .ok 200
      ∧ (200 : Addr) ≠ 100 := by
  refine ⟨by decide, by decide, by decide, by decide⟩

/-- C2 (amended: `BlockSize ≥ 1`): for every allocator state and every address
`p` returned by `allocate(1)`, `deallocate(p, 1)` succeeds and the next
`allocate(1)` returns `p`, makes no expansion and no provider call (the runtime
is unchanged), and leaves `free_blocks` as it was before the `deallocate`. -/
theorem reuse_lifo (BlockSize sizeofT : Nat) (a : MyAllocator) (rt : Runtime)
    (p : Addr) (a1 : MyAllocator) (rt1 : Runtime) (hB : 1 ≤ BlockSize)
    (_h : allocate BlockSize sizeofT 1 a rt = (.ok p, a1, rt1)) :
    deallocate BlockSize p 1 a1 rt1 = (.ok (), ⟨a1.free_blocks ++ [p]⟩, rt1)
      ∧ allocate BlockSize sizeofT 1 ⟨a1.free_blocks ++ [p]⟩ rt1 = (.ok p, a1, rt1) := by
  have hn : ¬ (1 > BlockSize) := by omega
  constructor
  · simp [deallocate, hn]
  · simp [allocate, hn, takeBack]

/-- Witness of `reuse_lifo`: `BlockSize = 10`, the pool `[7, 8]`. -/
theorem reuse_lifo_witness :
    deallocate 10 8 1 ⟨[7]⟩ (Runtime.granting 0 0) = (.ok (), ⟨[7] ++ [8]⟩, Runtime.granting 0 0)
      ∧ allocate 10 4 1 ⟨[7] ++ [8]⟩ (Runtime.granting 0 0)
          = (.ok 8, ⟨[7]⟩, Runtime.granting 0 0) :=
  reuse_lifo 10 4 ⟨[7, 8]⟩ (Runtime.granting 0 0) 8 ⟨[7]⟩ (Runtime.granting 0 0)
    (by decide) (by decide)

/-! ## Shared lemmas: the pooled path on a non-empty free list -/

theorem takeBack_append (F : List Addr) (p : Addr) (rt : Runtime) :
    takeBack ⟨F ++ [p]⟩ rt = (.ok p, ⟨F⟩, rt) := by
  simp [takeBack]

theorem allocate_pooled_append (BlockSize sizeofT n : Nat) (F : List Addr) (p : Addr)
    (rt : Runtime) (hn : n ≤ BlockSize) :
    allocate BlockSize sizeofT n ⟨F ++ [p]⟩ rt = (.ok p, ⟨F⟩, rt) := by
  have h : ¬ (n > BlockSize) := by omega
  simp [allocate, h, takeBack]

theorem deallocate_pooled (BlockSize : Nat) (p : Addr) (n : Nat) (a : MyAllocator)
    (rt : Runtime) (hn : n ≤ BlockSize) :
    deallocate BlockSize p n a rt = (.ok (), ⟨a.free_blocks ++ [p]⟩, rt) := by
  have h : ¬ (n > BlockSize) := by omega
  simp [deallocate, h]

theorem deallocateAll_pooled (BlockSize n : Nat) (hn : n ≤ BlockSize) (ps : List Addr) :
    ∀ (a : MyAllocator) (rt : Runtime),
      deallocateAll BlockSize n ps a rt
        = (ps.map (fun _ => Outcome.ok ()), ⟨a.free_blocks ++ ps⟩, rt) := by
  induction ps with
  | nil => intro a rt; simp [deallocateAll]
  | cons p ps ih =>
    intro a rt
    simp [deallocateAll, deallocate_pooled BlockSize p n a rt hn, ih]

theorem allocateMany_pooled (BlockSize sizeofT n : Nat) (hn : n ≤ BlockSize)
    (F : List Addr) (rt : Runtime) (ps : List Addr) :
    allocateMany BlockSize sizeofT n ps.length ⟨F ++ ps⟩ rt
      = (ps.reverse.map Outcome.ok, ⟨F⟩, rt) := by
  induction ps using List.reverseRecOn with
  | nil => simp [allocateMany]
  | append_singleton ps p ih =>
    have h := allocate_pooled_append BlockSize sizeofT n (F ++ ps) p rt hn
    rw [List.append_assoc] at h
    simp [allocateMany, h, ih]

/-! ## C3: last-in-first-out reuse of a batch -/

/-- C3 as stated fails for `BlockSize = 0`: the two released addresses go back to
the provider, `free_blocks` is never used, and the next two `allocate(1)` calls
return what the provider answers (`300`, `400`), not `101`, `100`. -/
theorem batch_reuse_fails_for_BlockSize_zero :
    deallocateAll 0 1 [100, 101] MyAllocator.fresh ⟨[(100, 4), (101, 4)], [some 300, some 400], 0⟩
        = ([.ok (), .ok ()], MyAllocator.fresh, ⟨[], [some 300, some 400], 0⟩)
      ∧ (allocateMany 0 4 1 2 MyAllocator.fresh ⟨[], [some 300, some 400], 0⟩).1
        = [.ok 300, .ok 400]
      ∧ ([.ok 300, .ok 400] : List (Outcome Addr)) ≠ [.ok 101, .ok 100] := by
  refine ⟨by decide, by decide, by decide⟩

/-- C3 (amended: `BlockSize ≥ 1`): for every free list `F` and all addresses `ps`
released in that order by `deallocate(p, 1)`, every release succeeds and appends,
and the next `ps.length` calls of `allocate(1)` return the addresses in reverse
order of release, with no expansion and no provider call (the runtime is
unchanged), and leave the free list equal to `F`. -/
theorem batch_lifo (BlockSize sizeofT : Nat) (F : MyAllocator) (rt : Runtime)
    (ps : List Addr) (hB : 1 ≤ BlockSize) :
    deallocateAll BlockSize 1 ps F rt
        = (ps.map (fun _ => Outcome.ok ()), ⟨F.free_blocks ++ ps⟩, rt)
      ∧ allocateMany BlockSize sizeofT 1 ps.length ⟨F.free_blocks ++ ps⟩ rt
        = (ps.reverse.map Outcome.ok, F, rt) :=
  ⟨deallocateAll_pooled BlockSize 1 hB ps F rt,
   allocateMany_pooled BlockSize sizeofT 1 hB F.free_blocks rt ps⟩

/-- Witness of `batch_lifo`, the scenario of the claim: `BlockSize = 10`, empty
pool; ten `allocate(1)` return `109, …, 100`; they are released in reverse order
of allocation (`100, …, 109`); ten more `allocate(1)` return `109, …, 100`, the
released addresses in reverse order of release. -/
theorem batch_lifo_witness :
    1 ≤ 10
      ∧ allocateMany 10 4 1 10 MyAllocator.fresh (Runtime.granting 10 100)
          = ([.ok 109, .ok 108, .ok 107, .ok 106, .ok 105, .ok 104, .ok 103, .ok 102,
              .ok 101, .ok 100], ⟨[]⟩,
             (expand 10 4 MyAllocator.fresh (Runtime.granting 10 100)).2.2)
      ∧ deallocateAll 10 1 [100, 101, 102, 103, 104, 105, 106, 107, 108, 109] ⟨[]⟩
            (expand 10 4 MyAllocator.fresh (Runtime.granting 10 100)).2.2
          = ([.ok (), .ok (), .ok (), .ok (), .ok (), .ok (), .ok (), .ok (), .ok (), .ok ()],
             ⟨[100, 101, 102, 103, 104, 105, 106, 107, 108, 109]⟩,
             (expand 10 4 MyAllocator.fresh (Runtime.granting 10 100)).2.2)
      ∧ allocateMany 10 4 1 10 ⟨[100, 101, 102, 103, 104, 105, 106, 107, 108, 109]⟩
            (expand 10 4 MyAllocator.fresh (Runtime.granting 10 100)).2.2
          = ([.ok 109, .ok 108, .ok 107, .ok 106, .ok 105, .ok 104, .ok 103, .ok 102,
              .ok 101, .ok 100], ⟨[]⟩,
             (expand 10 4 MyAllocator.fresh (Runtime.granting 10 100)).2.2) :=
  ⟨by decide, by decide,
   batch_lifo 10 4 ⟨[]⟩ (expand 10 4 MyAllocator.fresh (Runtime.granting 10 100)).2.2
     [100, 101, 102, 103, 104, 105, 106, 107, 108, 109] (by decide)⟩

/-! ## Shared lemmas: the provider -/

theorem filter_le_length_lt (used : List Nat) (a : Nat) (h : a ∈ used) :
    (used.filter (fun x => decide (a + 1 ≤ x))).length
      < (used.filter (fun x => decide (a ≤ x))).length := by
  induction used with
  | nil => simp at h
  | cons x xs ih =>
    have hmono : (xs.filter (fun x => decide (a + 1 ≤ x))).length
        ≤ (xs.filter (fun x => decide (a ≤ x))).length := by
      rw [← List.countP_eq_length_filter, ← List.countP_eq_length_filter]
      apply List.countP_mono_left
      intro y _ hy
      simp only [decide_eq_true_eq] at hy ⊢
      omega
    by_cases hx : x = a
    · subst hx
      have hx1 : ¬ (x + 1 ≤ x) := by omega
      simp only [List.filter_cons, hx1, decide_False, Bool.false_eq_true, if_false,
        Nat.le_refl, decide_True, if_true, List.length_cons]
      omega
    · have hmem : a ∈ xs := by
        rcases List.mem_cons.mp h with h1 | h1
        · exact absurd h1.symm hx
        · exact h1
      have ih1 := ih hmem
      by_cases h1 : a + 1 ≤ x
      · have h2 : a ≤ x := by omega
        simp [List.filter_cons, h1, h2]
        exact ih1
      · by_cases h2 : a ≤ x
        · exact absurd (by omega : x = a) hx
        · simp [List.filter_cons, h1, h2]
          exact ih1

theorem freshFrom_not_mem_aux (used : List Nat) :
    ∀ (fuel : Nat) (a : Nat),
      (used.filter (fun x => decide (a ≤ x))).length ≤ fuel → freshFrom used fuel a ∉ used := by
  intro fuel
  induction fuel with
  | zero =>
    intro a h hmem
    simp only [freshFrom] at hmem
    have : a ∈ used.filter (fun x => decide (a ≤ x)) := by
      simp [List.mem_filter, hmem]
    have h0 : used.filter (fun x => decide (a ≤ x)) = [] := List.length_eq_zero.mp (by omega)
    rw [h0] at this
    simp at this
  | succ k ih =>
    intro a h
    simp only [freshFrom]
    split
    · next hmem =>
      apply ih
      have := filter_le_length_lt used a hmem
      omega
    · next hmem => exact hmem

theorem freshFrom_not_mem (used : List Addr) (a : Addr) :
    freshFrom used used.length a ∉ used :=
  freshFrom_not_mem_aux used used.length a (List.length_filter_le _ _)

theorem operatorNew_some (bytes : Nat) (rt rt1 : Runtime) (p : Addr)
    (h : operatorNew bytes rt = (some p, rt1)) :
    p ∉ rt.addrs ∧ rt1.live = rt.live ++ [(p, bytes)] ∧ rt.script ≠ []
      ∧ rt1.script = rt.script.tail ∧ rt1.expansions = rt.expansions := by
  unfold operatorNew at h
  split at h
  · simp at h
  · simp at h
  · next hint rest hs =>
    simp only [Prod.mk.injEq, Option.some.injEq] at h
    obtain ⟨hp, hrt⟩ := h
    subst hrt
    subst hp
    refine ⟨freshFrom_not_mem _ _, rfl, ?_, ?_, rfl⟩
    · simp [hs]
    · simp [hs]

theorem operatorNew_none (bytes : Nat) (rt rt1 : Runtime)
    (h : operatorNew bytes rt = (none, rt1)) :
    rt1.live = rt.live ∧ rt1.expansions = rt.expansions := by
  unfold operatorNew at h
  split at h
  · simp only [Prod.mk.injEq, true_and] at h
    subst h
    exact ⟨rfl, rfl⟩
  · simp only [Prod.mk.injEq, true_and] at h
    subst h
    exact ⟨rfl, rfl⟩
  · simp at h

theorem addrs_append (rt : Runtime) (l : List (Addr × Nat)) (rt1 : Runtime)
    (h : rt1.live = rt.live ++ l) : rt1.addrs = rt.addrs ++ l.map Prod.fst := by
  simp [Runtime.addrs, h]

theorem filter_ne_append_self (live : List (Addr × Nat)) (p : Addr) (bytes : Nat)
    (h : p ∉ live.map Prod.fst) :
    (live ++ [(p, bytes)]).filter (fun b => b.1 != p) = live := by
  rw [List.filter_append]
  have h1 : live.filter (fun b => b.1 != p) = live := by
    rw [List.filter_eq_self]
    intro b hb
    have : b.1 ≠ p := by
      intro hbp
      apply h
      rw [← hbp]
      exact List.mem_map_of_mem Prod.fst hb
    simpa using this
  simp [h1]

/-! ## C5, C6: the threshold between the pooled path and the provider path -/

theorem allocate_oversized (BlockSize sizeofT n : Nat) (a : MyAllocator) (rt : Runtime)
    (hn : BlockSize < n) :
    allocate BlockSize sizeofT n a rt
      = match operatorNew ((n * sizeofT) % SIZE_MOD) rt with
        | (none, rt1) => (.outOfMemory, a, rt1)
        | (some p, rt1) => (.ok p, a, rt1) := by
  have h : n > BlockSize := hn
  simp [allocate, h]

theorem deallocate_oversized (BlockSize : Nat) (p : Addr) (n : Nat) (a : MyAllocator)
    (rt : Runtime) (hn : BlockSize < n) :
    deallocate BlockSize p n a rt = ((operatorDelete p rt).1, a, (operatorDelete p rt).2) := by
  have h : n > BlockSize := hn
  simp [deallocate, h]

/-- C5: for every `n > BlockSize` and every allocator state,
* `allocate(n)` leaves `free_blocks` unchanged, and its outcome and the runtime it
  leaves do not depend on `free_blocks` (not consulted);
* when `allocate(n)` returns `q`, then `q` is a block newly reserved from the
  provider, of `n * sizeof(T)` bytes in `size_t` arithmetic, and no expansion was
  made;
* `deallocate(p, n)` leaves `free_blocks` unchanged and does exactly what
  `operator delete(p)` does; for a reserved `p` it returns normally and `p` is no
  longer reserved;
* `allocate(n)` followed by `deallocate(q, n)` on the address returned leaves the
  free list and the reserved blocks as they were. -/
theorem oversized_bypasses_pool (BlockSize sizeofT n : Nat) (a : MyAllocator) (rt : Runtime)
    (hn : BlockSize < n) :
    (allocate BlockSize sizeofT n a rt).2.1 = a
      ∧ (∀ a2 : MyAllocator,
          (allocate BlockSize sizeofT n a2 rt).1 = (allocate BlockSize sizeofT n a rt).1
            ∧ (allocate BlockSize sizeofT n a2 rt).2.2 = (allocate BlockSize sizeofT n a rt).2.2)
      ∧ (∀ q a1 rt1, allocate BlockSize sizeofT n a rt = (.ok q, a1, rt1) →
          q ∉ rt.addrs ∧ rt1.live = rt.live ++ [(q, (n * sizeofT) % SIZE_MOD)]
            ∧ rt1.expansions = rt.expansions)
      ∧ (∀ p, deallocate BlockSize p n a rt
          = ((operatorDelete p rt).1, a, (operatorDelete p rt).2))
      ∧ (∀ p, p ∈ rt.addrs → ∃ rt1, deallocate BlockSize p n a rt = (.ok (), a, rt1)
          ∧ p ∉ rt1.addrs ∧ rt1.live = rt.live.filter (fun b => b.1 != p))
      ∧ (∀ q a1 rt1, allocate BlockSize sizeofT n a rt = (.ok q, a1, rt1) →
          ∃ rt2, deallocate BlockSize q n a1 rt1 = (.ok (), a, rt2)
            ∧ rt2.live = rt.live ∧ rt2.expansions = rt.expansions) := by
  have key : ∀ q a1 rt1, allocate BlockSize sizeofT n a rt = (.ok q, a1, rt1) →
      a1 = a ∧ operatorNew ((n * sizeofT) % SIZE_MOD) rt = (some q, rt1) := by
    intro q a1 rt1 h
    rw [allocate_oversized BlockSize sizeofT n a rt hn] at h
    split at h
    · simp at h
    · next p rt2 hnew =>
      simp only [Prod.mk.injEq, Outcome.ok.injEq] at h
      obtain ⟨h1, h2, h3⟩ := h
      subst h1 h2 h3
      exact ⟨rfl, hnew⟩
  refine ⟨?_, ?_, ?_, ?_, ?_, ?_⟩
  · rw [allocate_oversized BlockSize sizeofT n a rt hn]
    split <;> rfl
  · intro a2
    rw [allocate_oversized BlockSize sizeofT n a rt hn,
      allocate_oversized BlockSize sizeofT n a2 rt hn]
    split <;> exact ⟨rfl, rfl⟩
  · intro q a1 rt1 h
    obtain ⟨_, hnew⟩ := key q a1 rt1 h
    have := operatorNew_some _ rt rt1 q hnew
    exact ⟨this.1, this.2.1, this.2.2.2.2⟩
  · intro p
    exact deallocate_oversized BlockSize p n a rt hn
  · intro p hp
    refine ⟨{ rt with live := rt.live.filter (fun b => b.1 != p) }, ?_, ?_, rfl⟩
    · rw [deallocate_oversized BlockSize p n a rt hn]
      simp [operatorDelete, hp]
    · simp [Runtime.addrs, List.mem_map, List.mem_filter]
  · intro q a1 rt1 h
    obtain ⟨ha, hnew⟩ := key q a1 rt1 h
    obtain ⟨hfresh, hlive, _, _, hexp⟩ := operatorNew_some _ rt rt1 q hnew
    subst ha
    have hq : q ∈ rt1.addrs := by
      simp [Runtime.addrs, hlive]
    refine ⟨{ rt1 with live := rt1.live.filter (fun b => b.1 != q) }, ?_, ?_, hexp⟩
    · rw [deallocate_oversized BlockSize q n a1 rt1 hn]
      simp [operatorDelete, hq]
    · show rt1.live.filter (fun b => b.1 != q) = rt.live
      rw [hlive]
      exact filter_ne_append_self rt.live q _ hfresh

/-- Witness of `oversized_bypasses_pool`, the scenario of the claim: with
`BlockSize = 10` and the free list `[7, 8]`, `allocate(11)` returns the provider
block `100` and `deallocate(100, 11)` gives it back; the free list is `[7, 8]`
throughout. -/
theorem oversized_bypasses_pool_witness :
    10 < 11
      ∧ allocate 10 4 11 ⟨[7, 8]⟩ ⟨[(7, 4), (8, 4)], [some 100], 1⟩
          = (.ok 100, ⟨[7, 8]⟩, ⟨[(7, 4), (8, 4), (100, 44)], [], 1⟩)
      ∧ deallocate 10 100 11 ⟨[7, 8]⟩ ⟨[(7, 4), (8, 4), (100, 44)], [], 1⟩
          = (.ok (), ⟨[7, 8]⟩, ⟨[(7, 4), (8, 4)], [], 1⟩)
      ∧ (allocate 10 4 11 ⟨[7, 8]⟩ ⟨[(7, 4), (8, 4)], [some 100], 1⟩).2.1 = ⟨[7, 8]⟩ :=
  ⟨by decide, by decide, by decide,
   (oversized_bypasses_pool 10 4 11 ⟨[7, 8]⟩ ⟨[(7, 4), (8, 4)], [some 100], 1⟩
      (by decide)).1⟩

theorem operatorNew_of_successes_pos (bytes : Nat) (rt : Runtime) (h : 0 < rt.successes) :
    ∃ p rt1, operatorNew bytes rt = (some p, rt1) ∧ rt1.successes + 1 = rt.successes := by
  obtain ⟨live, script, e⟩ := rt
  cases script with
  | nil => simp [Runtime.successes] at h
  | cons s rest =>
    cases s with
    | none => simp [Runtime.successes] at h
    | some hint =>
      refine ⟨_, _, rfl, ?_⟩
      simp [Runtime.successes, List.takeWhile_cons]

theorem operatorNew_of_successes_zero (bytes : Nat) (rt : Runtime) (h : rt.successes = 0) :
    ∃ rt1, operatorNew bytes rt = (none, rt1) := by
  obtain ⟨live, script, e⟩ := rt
  cases script with
  | nil => exact ⟨_, rfl⟩
  | cons s rest =>
    cases s with
    | none => exact ⟨_, rfl⟩
    | some hint => simp [Runtime.successes, List.takeWhile_cons] at h

theorem expandLoop_ok (sizeofT : Nat) :
    ∀ (k : Nat) (a : MyAllocator) (rt : Runtime), k ≤ rt.successes →
      ∃ ps rt1, expandLoop sizeofT k a rt = (.ok (), ⟨a.free_blocks ++ ps⟩, rt1)
        ∧ ps.length = k
        ∧ rt1.live = rt.live ++ ps.map (fun p => (p, sizeofT))
        ∧ rt1.script = rt.script.drop k
        ∧ rt1.expansions = rt.expansions
        ∧ ps.Nodup ∧ (∀ p ∈ ps, p ∉ rt.addrs) := by
  intro k
  induction k with
  | zero =>
    intro a rt _
    exact ⟨[], rt, by simp [expandLoop], rfl, by simp, by simp, rfl, List.nodup_nil, by simp⟩
  | succ k ih =>
    intro a rt hk
    obtain ⟨p, rt1, hnew, hs⟩ := operatorNew_of_successes_pos sizeofT rt (by omega)
    obtain ⟨hfresh, hlive, hne, hscript, hexp⟩ := operatorNew_some sizeofT rt rt1 p hnew
    obtain ⟨ps, rt2, hloop, hlen, hlive2, hscript2, hexp2, hnd, hfr⟩ :=
      ih ⟨a.free_blocks ++ [p]⟩ rt1 (by omega)
    have haddrs : rt1.addrs = rt.addrs ++ [p] := by
      simp [Runtime.addrs, hlive]
    refine ⟨p :: ps, rt2, ?_, by simp [hlen], ?_, ?_, by omega, ?_, ?_⟩
    · simp only [expandLoop, hnew, hloop]
      simp
    · simp [hlive2, hlive]
    · rw [hscript2, hscript, List.drop_tail]
    · refine List.nodup_cons.mpr ⟨?_, hnd⟩
      intro hp
      have := hfr p hp
      simp [haddrs] at this
    · intro q hq
      rcases List.mem_cons.mp hq with h1 | h1
      · rw [h1]; exact hfresh
      · have := hfr q h1
        simp [haddrs] at this
        exact this.1

theorem expandLoop_refused (sizeofT : Nat) :
    ∀ (k : Nat) (a : MyAllocator) (rt : Runtime), rt.successes < k →
      ∃ ps rt1, expandLoop sizeofT k a rt = (.outOfMemory, ⟨a.free_blocks ++ ps⟩, rt1)
        ∧ ps.length = rt.successes
        ∧ rt1.live = rt.live ++ ps.map (fun p => (p, sizeofT))
        ∧ rt1.expansions = rt.expansions := by
  intro k
  induction k with
  | zero => intro a rt h; omega
  | succ k ih =>
    intro a rt hk
    by_cases h0 : rt.successes = 0
    · obtain ⟨rt1, hnew⟩ := operatorNew_of_successes_zero sizeofT rt h0
      obtain ⟨hlive, hexp⟩ := operatorNew_none sizeofT rt rt1 hnew
      refine ⟨[], rt1, ?_, by simp [h0], by simp [hlive], hexp⟩
      simp only [expandLoop, hnew]
      simp
    · obtain ⟨p, rt1, hnew, hs⟩ := operatorNew_of_successes_pos sizeofT rt (by omega)
      obtain ⟨_, hlive, _, _, hexp⟩ := operatorNew_some sizeofT rt rt1 p hnew
      obtain ⟨ps, rt2, hloop, hlen, hlive2, hexp2⟩ :=
        ih ⟨a.free_blocks ++ [p]⟩ rt1 (by omega)
      refine ⟨p :: ps, rt2, ?_, by simp [hlen]; omega, by simp [hlive2, hlive], by omega⟩
      simp only [expandLoop, hnew, hloop]
      simp

theorem expandLoop_expansions (sizeofT : Nat) :
    ∀ (k : Nat) (a : MyAllocator) (rt : Runtime),
      (expandLoop sizeofT k a rt).2.2.expansions = rt.expansions := by
  intro k
  induction k with
  | zero => intro a rt; rfl
  | succ k ih =>
    intro a rt
    simp only [expandLoop]
    split
    · next rt1 hnew => exact (operatorNew_none sizeofT rt rt1 hnew).2
    · next p rt1 hnew =>
      rw [ih]
      exact (operatorNew_some sizeofT rt rt1 p hnew).2.2.2.2

theorem takeBack_runtime (a : MyAllocator) (rt : Runtime) : (takeBack a rt).2.2 = rt := by
  unfold takeBack
  split <;> rfl

theorem takeBack_of_ne_nil (a : MyAllocator) (rt : Runtime) (h : a.free_blocks ≠ []) :
    takeBack a rt = (.ok (a.free_blocks.getLast h), ⟨a.free_blocks.dropLast⟩, rt) := by
  unfold takeBack
  rw [List.getLast?_eq_getLast _ h]

/-- A pooled `allocate` on an empty free list calls `expand` exactly once. -/
theorem allocate_empty_expansions (BlockSize sizeofT n : Nat) (rt : Runtime)
    (hn : n ≤ BlockSize) :
    (allocate BlockSize sizeofT n ⟨[]⟩ rt).2.2.expansions = rt.expansions + 1 := by
  have h : ¬ (n > BlockSize) := by omega
  have hexp := expandLoop_expansions sizeofT BlockSize ⟨[]⟩
    { rt with expansions := rt.expansions + 1 }
  simp only [allocate, h, if_false, List.isEmpty_nil, if_true, expand]
  split
  · next a1 rt1 heq =>
    rw [takeBack_runtime]
    rw [heq] at hexp
    exact hexp
  · next a1 rt1 heq =>
    rw [heq] at hexp
    exact hexp
  · next a1 rt1 heq =>
    rw [heq] at hexp
    exact hexp

/-- A pooled `allocate` on an empty free list, with `BlockSize ≥ 1` and a provider
that grants the next `BlockSize` requests. -/
theorem allocate_empty_granted (BlockSize sizeofT n : Nat) (rt : Runtime)
    (hB : 1 ≤ BlockSize) (hn : n ≤ BlockSize) (hs : BlockSize ≤ rt.successes) :
    ∃ qs q rt1, allocate BlockSize sizeofT n ⟨[]⟩ rt = (.ok q, ⟨qs⟩, rt1)
      ∧ qs.length + 1 = BlockSize
      ∧ rt1.live = rt.live ++ (qs ++ [q]).map (fun p => (p, sizeofT))
      ∧ rt1.script = rt.script.drop BlockSize
      ∧ rt1.expansions = rt.expansions + 1
      ∧ (qs ++ [q]).Nodup ∧ (∀ p ∈ qs ++ [q], p ∉ rt.addrs) := by
  have h : ¬ (n > BlockSize) := by omega
  obtain ⟨ps, rt1, hloop, hlen, hlive, hscript, hexp, hnd, hfr⟩ :=
    expandLoop_ok sizeofT BlockSize ⟨[]⟩ { rt with expansions := rt.expansions + 1 } hs
  have hne : ps ≠ [] := by
    intro h0
    rw [h0] at hlen
    simp at hlen
    omega
  have hsplit : ps = ps.dropLast ++ [ps.getLast hne] := (List.dropLast_append_getLast hne).symm
  refine ⟨ps.dropLast, ps.getLast hne, rt1, ?_, ?_, ?_, hscript, hexp, ?_, ?_⟩
  · simp only [allocate, h, if_false, List.isEmpty_nil, if_true, expand, hloop,
      List.nil_append]
    exact takeBack_of_ne_nil ⟨ps⟩ rt1 hne
  · simp [hlen]
    omega
  · rw [← hsplit]; exact hlive
  · rw [← hsplit]; exact hnd
  · rw [← hsplit]; exact hfr

/-- With `BlockSize ≥ 1` no call of `allocate` has undefined behaviour. -/
theorem allocate_defined (BlockSize sizeofT n : Nat) (a : MyAllocator) (rt : Runtime)
    (hB : 1 ≤ BlockSize) : (allocate BlockSize sizeofT n a rt).1 ≠ .undefined := by
  by_cases hn : n > BlockSize
  · rw [allocate_oversized BlockSize sizeofT n a rt hn]
    split <;> simp
  · obtain ⟨F⟩ := a
    cases hF : F using List.reverseRecOn with
    | nil =>
      by_cases hs : BlockSize ≤ rt.successes
      · obtain ⟨qs, q, rt1, h, _⟩ :=
          allocate_empty_granted BlockSize sizeofT n rt hB (by omega) hs
        rw [h]
        simp
      · obtain ⟨ps, rt1, hloop, _⟩ :=
          expandLoop_refused sizeofT BlockSize ⟨[]⟩
            { rt with expansions := rt.expansions + 1 } (by
              show rt.successes < BlockSize
              omega)
        simp [allocate, hn, expand, hloop]
    | append_singleton F1 p _ =>
      rw [allocate_pooled_append BlockSize sizeofT n F1 p rt (by omega)]
      simp

/-! ## The size of the block a pooled `allocate` returns -/

theorem blockSize_append_fresh (rt : Runtime) (l : List (Addr × Nat)) (q bytes : Nat)
    (hlive : rt.live = l ++ [(q, bytes)]) (hq : q ∉ l.map Prod.fst) :
    rt.blockSize q = some bytes := by
  have hnone : l.find? (fun b => b.1 == q) = none := by
    rw [List.find?_eq_none]
    intro b hb hbq
    apply hq
    have : b.1 = q := by simpa using hbq
    rw [← this]
    exact List.mem_map_of_mem Prod.fst hb
  simp [Runtime.blockSize, hlive, List.find?_append, hnone]

/-- On an empty free list, with `BlockSize ≥ 1` and a granting provider, the block
returned by `allocate(n)` for any `n ≤ BlockSize` has exactly `sizeof(T)` bytes,
which for `n > 1` is fewer than the `n * sizeof(T)` bytes of `n` values. -/
theorem allocate_pooled_block_size (BlockSize sizeofT n : Nat) (rt : Runtime)
    (hB : 1 ≤ BlockSize) (hn : n ≤ BlockSize) (hs : BlockSize ≤ rt.successes) :
    ∃ q a1 rt1, allocate BlockSize sizeofT n ⟨[]⟩ rt = (.ok q, a1, rt1)
      ∧ rt1.blockSize q = some sizeofT
      ∧ (1 < n → 0 < sizeofT → sizeofT < n * sizeofT) := by
  obtain ⟨qs, q, rt1, h1, _, h3, _, _, h6, h7⟩ :=
    allocate_empty_granted BlockSize sizeofT n rt hB hn hs
  refine ⟨q, ⟨qs⟩, rt1, h1, ?_, ?_⟩
  · apply blockSize_append_fresh rt1 (rt.live ++ qs.map (fun p => (p, sizeofT))) q sizeofT
    · rw [h3]; simp
    · have hq1 : q ∉ rt.addrs := h7 q (by simp)
      have hq2 : q ∉ qs := by
        intro hq
        have := List.nodup_append.mp h6
        exact this.2.2 hq (List.mem_singleton.mpr rfl)
      simp only [List.map_append, List.map_map, List.mem_append, not_or]
      refine ⟨hq1, ?_⟩
      simpa [Function.comp_def] using hq2
  · intro h1n hsz
    calc sizeofT = 1 * sizeofT := (Nat.one_mul _).symm
      _ < n * sizeofT := Nat.mul_lt_mul_of_pos_right h1n hsz

/-! ## C7: a provider refusal in the middle of an expansion -/

/-- C7 as stated fails when the refusal is not at the first reservation: with
`BlockSize = 10`, an empty free list and a provider that grants two requests and
refuses the third, `allocate(1)` fails with `OutOfMemory` and leaves the two
blocks already reserved, `100` and `101`, in `free_blocks`. -/
theorem refused_expansion_keeps_blocks :
    allocate 10 4 1 ⟨[]⟩ ⟨[], [some 100, some 100, none, some 100], 0⟩
        = (.outOfMemory, ⟨[100, 101]⟩, ⟨[(100, 4), (101, 4)], [some 100], 1⟩)
      ∧ (⟨[100, 101]⟩ : MyAllocator) ≠ ⟨[]⟩ := by
  refine ⟨by decide, by decide⟩

/-- C7 (amended): for every allocator state with an empty free list and every
`n ≤ BlockSize`, if the provider refuses one of the `BlockSize` reservations of
the expansion (it grants fewer than `BlockSize` requests before its first
refusal), `allocate(n)` fails with `OutOfMemory` and `free_blocks` afterwards
holds exactly the addresses of the blocks reserved before the refusal, in
reservation order, each a reserved block of `sizeof(T)` bytes; the free list is
the prior, empty one exactly when the first reservation is refused. -/
theorem refused_expansion (BlockSize sizeofT n : Nat) (a : MyAllocator) (rt : Runtime)
    (ha : a.free_blocks = []) (hn : n ≤ BlockSize) (hs : rt.successes < BlockSize) :
    ∃ ps rt1, allocate BlockSize sizeofT n a rt = (.outOfMemory, ⟨ps⟩, rt1)
      ∧ ps.length = rt.successes
      ∧ rt1.live = rt.live ++ ps.map (fun p => (p, sizeofT))
      ∧ rt1.expansions = rt.expansions + 1
      ∧ (ps = a.free_blocks ↔ rt.successes = 0) := by
  obtain ⟨F⟩ := a
  simp only at ha
  subst ha
  have h : ¬ (n > BlockSize) := by omega
  obtain ⟨ps, rt1, hloop, hlen, hlive, hexp⟩ :=
    expandLoop_refused sizeofT BlockSize ⟨[]⟩ { rt with expansions := rt.expansions + 1 } hs
  refine ⟨ps, rt1, ?_, hlen, hlive, hexp, ?_⟩
  · simp only [allocate, h, if_false, List.isEmpty_nil, if_true, expand, hloop,
      List.nil_append]
  · show ps = [] ↔ rt.successes = 0
    rw [← List.length_eq_zero]
    change ps.length = rt.successes at hlen
    omega

/-- Witness of `refused_expansion`: `BlockSize = 10`, two requests granted. -/
theorem refused_expansion_witness :
    (⟨[]⟩ : MyAllocator).free_blocks = [] ∧ 1 ≤ 10
      ∧ (⟨[], [some 100, some 100, none, some 100], 0⟩ : Runtime).successes < 10
      ∧ ∃ ps rt1, allocate 10 4 1 ⟨[]⟩ ⟨[], [some 100, some 100, none, some 100], 0⟩
            = (.outOfMemory, ⟨ps⟩, rt1)
          ∧ ps.length = (⟨[], [some 100, some 100, none, some 100], 0⟩ : Runtime).successes
          ∧ rt1.live = [] ++ ps.map (fun p => (p, 4))
          ∧ rt1.expansions = 0 + 1
          ∧ (ps = [] ↔ (⟨[], [some 100, some 100, none, some 100], 0⟩ : Runtime).successes = 0) :=
  ⟨rfl, by decide, by decide,
   refused_expansion 10 4 1 ⟨[]⟩ ⟨[], [some 100, some 100, none, some 100], 0⟩
     rfl (by decide) (by decide)⟩

/-! ## C8: one pooled `allocate` -/

/-- C8 as stated fails for `BlockSize = 0` (where `n ≤ BlockSize` is `n = 0`): the
expansion reserves no block, the free list is still empty, and reading
`free_blocks.back()` is undefined; nothing is returned. -/
theorem expansion_step_fails_for_BlockSize_zero :
    allocate 0 4 0 ⟨[]⟩ ⟨[], [some 100, some 100], 0⟩
      = (.undefined, ⟨[]⟩, ⟨[], [some 100, some 100], 1⟩) := by
  decide

/-- C8 (amended: `BlockSize ≥ 1`): for every `n ≤ BlockSize`,
* when `free_blocks` is empty and the provider grants the next `BlockSize`
  requests, `allocate(n)` makes one expansion, which reserves exactly `BlockSize`
  blocks of `sizeof(T)` bytes each (pairwise distinct, none reserved before),
  puts them in the free list in reservation order, and returns the one reserved
  last, leaving `BlockSize - 1` addresses in `free_blocks`;
* when `free_blocks` is not empty, `allocate(n)` returns its last element and
  drops it from the list, with no provider call and no expansion (the runtime is
  unchanged). -/
theorem allocate_pooled_step (BlockSize sizeofT n : Nat) (a : MyAllocator) (rt : Runtime)
    (hB : 1 ≤ BlockSize) (hn : n ≤ BlockSize) :
    (a.free_blocks = [] → BlockSize ≤ rt.successes →
        ∃ qs q rt1, allocate BlockSize sizeofT n a rt = (.ok q, ⟨qs⟩, rt1)
          ∧ qs.length = BlockSize - 1
          ∧ rt1.live = rt.live ++ (qs ++ [q]).map (fun p => (p, sizeofT))
          ∧ rt1.script = rt.script.drop BlockSize
          ∧ rt1.expansions = rt.expansions + 1
          ∧ (qs ++ [q]).Nodup ∧ (∀ p ∈ qs ++ [q], p ∉ rt.addrs))
      ∧ (∀ h : a.free_blocks ≠ [],
          allocate BlockSize sizeofT n a rt
            = (.ok (a.free_blocks.getLast h), ⟨a.free_blocks.dropLast⟩, rt)) := by
  constructor
  · intro ha hs
    obtain ⟨F⟩ := a
    simp only at ha
    subst ha
    obtain ⟨qs, q, rt1, h1, h2, h3, h4, h5, h6, h7⟩ :=
      allocate_empty_granted BlockSize sizeofT n rt hB hn hs
    exact ⟨qs, q, rt1, h1, by omega, h3, h4, h5, h6, h7⟩
  · intro h
    have hn1 : ¬ (n > BlockSize) := by omega
    have hne : a.free_blocks.isEmpty = false := by
      cases hF : a.free_blocks with
      | nil => exact absurd hF h
      | cons x xs => rfl
    simp only [allocate, hn1, if_false, hne, Bool.false_eq_true]
    exact takeBack_of_ne_nil a rt h

/-- Witness of `allocate_pooled_step`: `BlockSize = 3`, `n = 2`, on an empty free
list with a granting provider. -/
theorem allocate_pooled_step_witness :
    1 ≤ 3 ∧ 2 ≤ 3
      ∧ allocate 3 4 2 ⟨[]⟩ (Runtime.granting 3 100)
          = (.ok 102, ⟨[100, 101]⟩, ⟨[(100, 4), (101, 4), (102, 4)], [], 1⟩)
      ∧ allocate 3 4 2 ⟨[100, 101]⟩ ⟨[(100, 4), (101, 4), (102, 4)], [], 1⟩
          = (.ok 101, ⟨[100]⟩, ⟨[(100, 4), (101, 4), (102, 4)], [], 1⟩) :=
  ⟨by decide, by decide, by decide,
   (allocate_pooled_step 3 4 2 ⟨[100, 101]⟩ ⟨[(100, 4), (101, 4), (102, 4)], [], 1⟩
      (by decide) (by decide)).2 (by decide)⟩

/-! ## C9: a run of `BlockSize` single-slot requests on a fresh allocator -/

theorem allocateMany_defined (BlockSize sizeofT n : Nat) (hB : 1 ≤ BlockSize) :
    ∀ (k : Nat) (a : MyAllocator) (rt : Runtime),
      ∀ r ∈ (allocateMany BlockSize sizeofT n k a rt).1, r ≠ Outcome.undefined := by
  intro k
  induction k with
  | zero => intro a rt r hr; simp [allocateMany] at hr
  | succ k ih =>
    intro a rt r hr
    simp only [allocateMany] at hr
    rcases List.mem_cons.mp hr with h | h
    · rw [h]; exact allocate_defined BlockSize sizeofT n a rt hB
    · exact ih _ _ r h

/-- C9: for `BlockSize ≥ 1`, on a freshly constructed allocator (empty pool),
`BlockSize` consecutive `allocate(1)` calls
* never have undefined behaviour, whatever the provider does;
* when the provider grants the `BlockSize` reservations, all succeed, return
  `BlockSize` pairwise distinct addresses, none reserved before, make exactly one
  expansion, made by the first call, and leave `free_blocks` empty;
* and the next `allocate(1)` makes a second expansion. -/
theorem expansion_over_run (BlockSize sizeofT : Nat) (rt : Runtime) (hB : 1 ≤ BlockSize) :
    (∀ r ∈ (allocateMany BlockSize sizeofT 1 BlockSize MyAllocator.fresh rt).1,
        r ≠ Outcome.undefined)
      ∧ (allocate BlockSize sizeofT 1 MyAllocator.fresh rt).2.2.expansions
          = rt.expansions + 1
      ∧ (BlockSize ≤ rt.successes →
          ∃ (ps : List Addr) (rt1 : Runtime),
            allocateMany BlockSize sizeofT 1 BlockSize MyAllocator.fresh rt
              = (ps.map Outcome.ok, ⟨[]⟩, rt1)
            ∧ ps.length = BlockSize ∧ ps.Nodup ∧ (∀ p ∈ ps, p ∉ rt.addrs)
            ∧ rt1.live = rt.live ++ ps.reverse.map (fun p => (p, sizeofT))
            ∧ rt1.expansions = rt.expansions + 1
            ∧ (allocate BlockSize sizeofT 1 ⟨[]⟩ rt1).2.2.expansions
                = rt.expansions + 2) := by
  refine ⟨allocateMany_defined BlockSize sizeofT 1 hB BlockSize _ rt,
    allocate_empty_expansions BlockSize sizeofT 1 rt hB, ?_⟩
  intro hs
  obtain ⟨qs, q, rt1, h1, h2, h3, _, h5, h6, h7⟩ :=
    allocate_empty_granted BlockSize sizeofT 1 rt hB hB hs
  refine ⟨(qs ++ [q]).reverse, rt1, ?_, ?_, ?_, ?_, ?_, h5, ?_⟩
  · obtain ⟨k, hk⟩ : ∃ k, BlockSize = k + 1 := ⟨BlockSize - 1, by omega⟩
    have hlen : qs.length = k := by omega
    have hrest := allocateMany_pooled BlockSize sizeofT 1 hB [] rt1 qs
    rw [hlen] at hrest
    have h1k : allocate (k + 1) sizeofT 1 MyAllocator.fresh rt = (.ok q, ⟨qs⟩, rt1) := by
      rw [← hk]; exact h1
    rw [hk] at hrest
    simp only [List.nil_append] at hrest
    conv_lhs => rw [hk]
    simp only [allocateMany, h1k, hrest]
    simp
  · simp; omega
  · exact List.nodup_reverse.mpr h6
  · intro p hp
    exact h7 p (List.mem_reverse.mp hp)
  · rw [List.reverse_reverse]; exact h3
  · rw [allocate_empty_expansions BlockSize sizeofT 1 rt1 hB, h5]

/-- Witness of `expansion_over_run`: `BlockSize = 3`; the three calls return
`102, 101, 100`, with one expansion, and a fourth call expands again. -/
theorem expansion_over_run_witness :
    1 ≤ 3
      ∧ allocateMany 3 4 1 3 MyAllocator.fresh (Runtime.granting 6 100)
          = ([.ok 102, .ok 101, .ok 100], ⟨[]⟩,
             ⟨[(100, 4), (101, 4), (102, 4)], [some 100, some 100, some 100], 1⟩)
      ∧ (allocate 3 4 1 MyAllocator.fresh (Runtime.granting 6 100)).2.2.expansions
          = (Runtime.granting 6 100).expansions + 1 :=
  ⟨by decide, by decide, (expansion_over_run 3 4 (Runtime.granting 6 100) (by decide)).2.1⟩

/-! ## C4: no address is handed out twice -/

theorem good_perm {l l1 used used1 : List Addr} (hp : l1.Perm l)
    (hu : ∀ p ∈ used, p ∈ used1) (hg : Good l used) : Good l1 used1 :=
  ⟨(hp.nodup_iff).mpr hg.1, fun p hp1 => hu p (hg.2 p (hp.subset hp1))⟩

theorem good_cons {l used : List Addr} {p : Addr} (hp : p ∉ used) (hg : Good l used) :
    Good (p :: l) (used ++ [p]) := by
  refine ⟨List.nodup_cons.mpr ⟨fun h => hp (hg.2 p h), hg.1⟩, ?_⟩
  intro q hq
  rcases List.mem_cons.mp hq with h | h
  · simp [h]
  · exact List.mem_append_left _ (hg.2 q h)

theorem good_tail {l used used1 : List Addr} {p : Addr}
    (hu : ∀ q ∈ used, q ≠ p → q ∈ used1) (hg : Good (p :: l) used) : Good l used1 := by
  have hnd := List.nodup_cons.mp hg.1
  refine ⟨hnd.2, ?_⟩
  intro q hq
  apply hu q (hg.2 q (List.mem_cons_of_mem _ hq))
  intro h
  rw [h] at hq
  exact hnd.1 hq

theorem takeBack_ok (a a1 : MyAllocator) (rt rt1 : Runtime) (p : Addr)
    (h : takeBack a rt = (.ok p, a1, rt1)) :
    a.free_blocks = a1.free_blocks ++ [p] ∧ rt1 = rt := by
  by_cases hF : a.free_blocks = []
  · simp [takeBack, hF] at h
  · rw [takeBack_of_ne_nil a rt hF] at h
    simp only [Prod.mk.injEq, Outcome.ok.injEq] at h
    obtain ⟨h1, h2, h3⟩ := h
    subst h1 h2 h3
    exact ⟨(List.dropLast_append_getLast hF).symm, rfl⟩

theorem takeBack_not_outOfMemory (a : MyAllocator) (rt : Runtime) :
    (takeBack a rt).1 ≠ .outOfMemory := by
  unfold takeBack
  split <;> simp

theorem expandLoop_good (sizeofT : Nat) (out : List Addr) :
    ∀ (k : Nat) (a : MyAllocator) (rt : Runtime), Good (a.free_blocks ++ out) rt.addrs →
      Good ((expandLoop sizeofT k a rt).2.1.free_blocks ++ out)
        (expandLoop sizeofT k a rt).2.2.addrs := by
  intro k
  induction k with
  | zero => intro a rt hg; exact hg
  | succ k ih =>
    intro a rt hg
    simp only [expandLoop]
    split
    · next rt1 hnew =>
      have hlive := (operatorNew_none sizeofT rt rt1 hnew).1
      have : rt1.addrs = rt.addrs := by simp [Runtime.addrs, hlive]
      show Good (a.free_blocks ++ out) rt1.addrs
      rw [this]
      exact hg
    · next p rt1 hnew =>
      obtain ⟨hfresh, hlive, _⟩ := operatorNew_some sizeofT rt rt1 p hnew
      have haddrs : rt1.addrs = rt.addrs ++ [p] := by simp [Runtime.addrs, hlive]
      apply ih
      show Good (a.free_blocks ++ [p] ++ out) rt1.addrs
      rw [haddrs]
      refine good_perm ?_ (fun _ h => h) (good_cons hfresh hg)
      simp

theorem allocate_good (BlockSize sizeofT n : Nat) (a a1 : MyAllocator) (rt rt1 : Runtime)
    (out : List Addr) (r : Outcome Addr)
    (h : allocate BlockSize sizeofT n a rt = (r, a1, rt1))
    (hg : Good (a.free_blocks ++ out) rt.addrs) :
    (∀ p, r = .ok p → Good (a1.free_blocks ++ (out ++ [p])) rt1.addrs)
      ∧ (r = .outOfMemory → Good (a1.free_blocks ++ out) rt1.addrs) := by
  have pop : ∀ (b : MyAllocator) (rtb : Runtime), Good (b.free_blocks ++ out) rtb.addrs →
      takeBack b rtb = (r, a1, rt1) →
      (∀ p, r = .ok p → Good (a1.free_blocks ++ (out ++ [p])) rt1.addrs)
        ∧ (r = .outOfMemory → Good (a1.free_blocks ++ out) rt1.addrs) := by
    intro b rtb hb htb
    constructor
    · intro p hr
      subst hr
      obtain ⟨hF, hrt⟩ := takeBack_ok b a1 rtb rt1 p htb
      subst hrt
      rw [hF] at hb
      refine good_perm ?_ (fun _ h => h) hb
      rw [List.append_assoc]
      exact List.Perm.append_left _ (List.perm_append_comm)
    · intro hr
      have := takeBack_not_outOfMemory b rtb
      rw [htb] at this
      exact absurd hr this
  by_cases hn : n > BlockSize
  · rw [allocate_oversized BlockSize sizeofT n a rt hn] at h
    split at h
    · next rt2 hnew =>
      simp only [Prod.mk.injEq] at h
      obtain ⟨h1, h2, h3⟩ := h
      subst h1 h2 h3
      have hlive := (operatorNew_none _ rt rt2 hnew).1
      have : rt2.addrs = rt.addrs := by simp [Runtime.addrs, hlive]
      refine ⟨fun p hp => by simp at hp, fun _ => ?_⟩
      rw [this]
      exact hg
    · next q rt2 hnew =>
      simp only [Prod.mk.injEq] at h
      obtain ⟨h1, h2, h3⟩ := h
      subst h1 h2 h3
      obtain ⟨hfresh, hlive, _⟩ := operatorNew_some _ rt rt2 q hnew
      have haddrs : rt2.addrs = rt.addrs ++ [q] := by simp [Runtime.addrs, hlive]
      refine ⟨fun p hp => ?_, fun hr => by simp at hr⟩
      simp only [Outcome.ok.injEq] at hp
      subst hp
      rw [haddrs]
      refine good_perm ?_ (fun _ h => h) (good_cons hfresh hg)
      rw [← List.append_assoc]
      exact List.perm_append_singleton _ _
  · by_cases he : a.free_blocks.isEmpty = true
    · have hx := expandLoop_good sizeofT out BlockSize a
        { rt with expansions := rt.expansions + 1 } hg
      simp only [allocate, hn, if_false, he, if_true, expand] at h
      split at h
      · next a2 rt2 heq =>
        rw [heq] at hx
        exact pop a2 rt2 hx h
      · next a2 rt2 heq =>
        rw [heq] at hx
        simp only [Prod.mk.injEq] at h
        obtain ⟨h1, h2, h3⟩ := h
        subst h1 h2 h3
        exact ⟨fun p hp => by simp at hp, fun _ => hx⟩
      · next a2 rt2 heq =>
        simp only [Prod.mk.injEq] at h
        obtain ⟨h1, h2, h3⟩ := h
        subst h1 h2 h3
        exact ⟨fun p hp => by simp at hp, fun hr => by simp at hr⟩
    · simp only [allocate, hn, if_false, he] at h
      exact pop a rt hg h

theorem deallocate_good (BlockSize : Nat) (p : Addr) (n : Nat) (a a1 : MyAllocator)
    (rt rt1 : Runtime) (out : List Addr) (hp : p ∈ out)
    (h : deallocate BlockSize p n a rt = (.ok (), a1, rt1))
    (hg : Good (a.free_blocks ++ out) rt.addrs) :
    Good (a1.free_blocks ++ out.erase p) rt1.addrs := by
  have hperm : (a.free_blocks ++ out).Perm (p :: (a.free_blocks ++ out.erase p)) :=
    (List.Perm.append_left _ (List.perm_cons_erase hp)).trans List.perm_middle
  by_cases hn : n > BlockSize
  · rw [deallocate_oversized BlockSize p n a rt hn] at h
    unfold operatorDelete at h
    split at h
    · simp only [Prod.mk.injEq, true_and] at h
      obtain ⟨h2, h3⟩ := h
      subst h2 h3
      refine good_tail ?_ (good_perm hperm.symm (fun _ h => h) hg)
      intro q hq hne
      simp only [Runtime.addrs, List.mem_map, List.mem_filter] at hq ⊢
      obtain ⟨b, hb, hbq⟩ := hq
      refine ⟨b, ⟨hb, ?_⟩, hbq⟩
      simp [hbq, hne]
    · simp at h
  · rw [deallocate_pooled BlockSize p n a rt (by omega)] at h
    simp only [Prod.mk.injEq, true_and] at h
    obtain ⟨h2, h3⟩ := h
    subst h2 h3
    refine good_perm ?_ (fun _ h => h) hg
    show (a.free_blocks ++ [p] ++ out.erase p).Perm (a.free_blocks ++ out)
    rw [List.append_assoc]
    exact List.Perm.append_left _ (List.perm_cons_erase hp).symm

theorem step_good (BlockSize sizeofT : Nat) (w w1 : World) (op : Op)
    (h : step BlockSize sizeofT w op = some w1)
    (hg : Good (w.pool.free_blocks ++ w.out) w.rt.addrs) :
    Good (w1.pool.free_blocks ++ w1.out) w1.rt.addrs := by
  cases op with
  | alloc n =>
    simp only [step] at h
    split at h
    · next p a1 rt1 heq =>
      simp only [Option.some.injEq] at h
      subst h
      exact (allocate_good BlockSize sizeofT n w.pool a1 w.rt rt1 w.out _ heq hg).1 p rfl
    · next a1 rt1 heq =>
      simp only [Option.some.injEq] at h
      subst h
      exact (allocate_good BlockSize sizeofT n w.pool a1 w.rt rt1 w.out _ heq hg).2 rfl
    · simp at h
  | dealloc p n =>
    simp only [step] at h
    split at h
    · next hp =>
      split at h
      · next a1 rt1 heq =>
        simp only [Option.some.injEq] at h
        subst h
        exact deallocate_good BlockSize p n w.pool a1 w.rt rt1 w.out hp heq hg
      · simp at h
    · simp at h

theorem run_good (BlockSize sizeofT : Nat) (ops : List Op) :
    ∀ (w w1 : World), run BlockSize sizeofT w ops = some w1 →
      Good (w.pool.free_blocks ++ w.out) w.rt.addrs →
      Good (w1.pool.free_blocks ++ w1.out) w1.rt.addrs := by
  induction ops with
  | nil =>
    intro w w1 h hg
    simp only [run, Option.some.injEq] at h
    subst h
    exact hg
  | cons op ops ih =>
    intro w w1 h hg
    simp only [run] at h
    split at h
    · simp at h
    · next w2 hstep => exact ih w2 w1 h (step_good BlockSize sizeofT w w2 op hstep hg)

/-- C4: start from a freshly constructed allocator, in any runtime (the provider
never answers with the address of a block that is still reserved), and let the
client make any sequence of `allocate` and `deallocate` calls in which
`deallocate` is only passed addresses currently handed out (`run` has a result
exactly for such sequences without undefined behaviour).  In the state reached,
`free_blocks` has no duplicate, the handed-out addresses have no duplicate,
`free_blocks` is disjoint from the handed-out addresses, every free or handed-out
address is a reserved block, and any `allocate` made next returns an address that
is not handed out. -/
theorem no_double_hand_out (BlockSize sizeofT : Nat) (rt : Runtime) (ops : List Op)
    (w : World) (h : run BlockSize sizeofT (World.init rt) ops = some w) :
    w.pool.free_blocks.Nodup ∧ w.out.Nodup
      ∧ List.Disjoint w.pool.free_blocks w.out
      ∧ (∀ p ∈ w.pool.free_blocks ++ w.out, p ∈ w.rt.addrs)
      ∧ (∀ n p a1 rt1, allocate BlockSize sizeofT n w.pool w.rt = (.ok p, a1, rt1) →
          p ∉ w.out ∧ p ∉ a1.free_blocks) := by
  have h0 : Good ((World.init rt).pool.free_blocks ++ (World.init rt).out)
      (World.init rt).rt.addrs := ⟨List.nodup_nil, fun p hp => by simp [World.init, MyAllocator.fresh] at hp⟩
  have hg := run_good BlockSize sizeofT ops (World.init rt) w h h0
  have hnd := List.nodup_append.mp hg.1
  refine ⟨hnd.1, hnd.2.1, hnd.2.2, hg.2, ?_⟩
  intro n p a1 rt1 ha
  have hg1 := (allocate_good BlockSize sizeofT n w.pool a1 w.rt rt1 w.out _ ha hg).1 p rfl
  have hnd1 := List.nodup_append.mp hg1.1
  have hnd2 := List.nodup_append.mp hnd1.2.1
  constructor
  · intro hp
    exact hnd2.2.2 hp (List.mem_singleton.mpr rfl)
  · intro hp
    exact hnd1.2.2 hp (by simp)

/-- Witness of `no_double_hand_out`: `BlockSize = 2`, a run with pooled and
oversized requests, releases, a refused expansion and a partly refused one. -/
theorem no_double_hand_out_witness :
    run 2 4 (World.init ⟨[(100, 8)], [some 100, some 100, some 100, none, some 7], 0⟩)
        [.alloc 1, .alloc 2, .dealloc 102 1, .alloc 3, .alloc 1, .dealloc 103 3,
         .alloc 1, .alloc 1, .alloc 1, .dealloc 101 2]
        = some ⟨⟨[101]⟩, ⟨[(100, 8), (101, 4), (102, 4), (7, 4)], [], 3⟩, [102, 7]⟩
      ∧ List.Disjoint [101] [102, 7] :=
  ⟨by decide,
   (no_double_hand_out 2 4 ⟨[(100, 8)], [some 100, some 100, some 100, none, some 7], 0⟩
      [.alloc 1, .alloc 2, .dealloc 102 1, .alloc 3, .alloc 1, .dealloc 103 3,
       .alloc 1, .alloc 1, .alloc 1, .dealloc 101 2]
      ⟨⟨[101]⟩, ⟨[(100, 8), (101, 4), (102, 4), (7, 4)], [], 3⟩, [102, 7]⟩
      (by decide)).2.2.1⟩

/-! ## When a client call has a next state -/

/-- With `BlockSize ≥ 1` every `allocate` call has a next state. -/
theorem step_alloc_defined (BlockSize sizeofT n : Nat) (w : World) (hB : 1 ≤ BlockSize) :
    ∃ w1, step BlockSize sizeofT w (.alloc n) = some w1 := by
  have hd := allocate_defined BlockSize sizeofT n w.pool w.rt hB
  simp only [step]
  split
  · exact ⟨_, rfl⟩
  · exact ⟨_, rfl⟩
  · next heq =>
    rw [heq] at hd
    exact absurd rfl hd

/-- In a state that satisfies the invariant, `deallocate` of a handed-out address
has a next state. -/
theorem step_dealloc_defined (BlockSize sizeofT : Nat) (p : Addr) (n : Nat) (w : World)
    (hg : Good (w.pool.free_blocks ++ w.out) w.rt.addrs) (hp : p ∈ w.out) :
    ∃ w1, step BlockSize sizeofT w (.dealloc p n) = some w1 := by
  have hlive : p ∈ w.rt.addrs := hg.2 p (List.mem_append_right _ hp)
  by_cases hn : n > BlockSize
  · refine ⟨⟨w.pool, { w.rt with live := w.rt.live.filter (fun b => b.1 != p) },
      w.out.erase p⟩, ?_⟩
    simp [step, hp, deallocate, hn, operatorDelete, hlive]
  · refine ⟨⟨⟨w.pool.free_blocks ++ [p]⟩, w.rt, w.out.erase p⟩, ?_⟩
    simp [step, hp, deallocate, hn]

/-! ## C11: the size asked of the provider on the oversized path -/

/-- On the oversized path, as long as `n * sizeof(T)` fits in `size_t`, the block
reserved for a successful `allocate(n)` has exactly `n * sizeof(T)` bytes. -/
theorem allocate_oversized_exact (BlockSize sizeofT n : Nat) (a a1 : MyAllocator)
    (rt rt1 : Runtime) (q : Addr) (hn : BlockSize < n) (hfit : n * sizeofT < SIZE_MOD)
    (h : allocate BlockSize sizeofT n a rt = (.ok q, a1, rt1)) :
    rt1.live = rt.live ++ [(q, n * sizeofT)] := by
  rw [allocate_oversized BlockSize sizeofT n a rt hn, Nat.mod_eq_of_lt hfit] at h
  split at h
  · simp at h
  · next p rt2 hnew =>
    simp only [Prod.mk.injEq, Outcome.ok.injEq] at h
    obtain ⟨h1, _, h3⟩ := h
    subst h1 h3
    exact (operatorNew_some _ rt rt2 p hnew).2.1

/-- C11 (the code falls short of the claim): with `BlockSize = 10` and
`sizeof(T) = 4`, the count `n = 2 ^ 62`, which is representable in `size_t` and
exceeds `BlockSize`, makes `allocate(n)` ask the provider for
`(n * 4) mod 2 ^ 64 = 0` bytes: the call returns normally with a block of 0 bytes,
while the mathematical product `n * sizeof(T)` is `2 ^ 64`. -/
theorem allocate_request_wraps :
    allocate 10 4 4611686018427387904 MyAllocator.fresh (Runtime.granting 1 100)
        = (.ok 100, ⟨[]⟩, ⟨[(100, 0)], [], 0⟩)
      ∧ 10 < 4611686018427387904 ∧ 4611686018427387904 < SIZE_MOD
      ∧ 4611686018427387904 * 4 = SIZE_MOD
      ∧ (4611686018427387904 * 4) % SIZE_MOD = 0 := by
  refine ⟨by decide, by decide, by decide, by decide, by decide⟩

/-! ## C12: comparison of allocators -/

/-- C12: for every two allocators of the same `BlockSize`, of element types of
any sizes and in any states, `operator==` returns `true` and `operator!=`
returns `false`; so `operator!=` is the negation of `operator==`, and equality is
reflexive, symmetric and transitive. -/
theorem allocators_always_equal (BlockSize sizeofT sizeofU sizeofV : Nat)
    (a b c : MyAllocator) :
    operatorEq BlockSize sizeofT sizeofU a b = true
      ∧ operatorNe BlockSize sizeofT sizeofU a b = false
      ∧ operatorNe BlockSize sizeofT sizeofU a b = !operatorEq BlockSize sizeofT sizeofU a b
      ∧ operatorEq BlockSize sizeofT sizeofT a a = true
      ∧ (operatorEq BlockSize sizeofT sizeofU a b = operatorEq BlockSize sizeofU sizeofT b a)
      ∧ (operatorEq BlockSize sizeofT sizeofU a b = true →
          operatorEq BlockSize sizeofU sizeofV b c = true →
          operatorEq BlockSize sizeofT sizeofV a c = true) :=
  ⟨rfl, rfl, rfl, rfl, rfl, fun _ _ => rfl⟩

/-- Witness of `allocators_always_equal`: allocators in different states, for
element types of sizes 4, 8 and 24. -/
theorem allocators_always_equal_witness :
    operatorEq 10 4 8 ⟨[7]⟩ ⟨[]⟩ = true ∧ operatorEq 10 8 24 ⟨[]⟩ ⟨[8, 9]⟩ = true
      ∧ operatorEq 10 4 24 ⟨[7]⟩ ⟨[8, 9]⟩ = true :=
  ⟨rfl, rfl,
   (allocators_always_equal 10 4 8 24 ⟨[7]⟩ ⟨[]⟩ ⟨[8, 9]⟩).2.2.2.2.2 rfl rfl⟩

/-! ## C14: copies of an allocator -/

/-- An allocator made by the converting constructor starts with an empty free
list, whatever the free list of its source. -/
theorem convert_free_blocks (a : MyAllocator) (p : Addr) :
    p ∉ (MyAllocator.convert a).free_blocks := by
  simp [MyAllocator.convert]

/-- C14 (the code falls short of the claim): with `BlockSize = 10`, allocator `a`
has handed out `109` and holds `100, …, 108` in its free list; `b` is
copy-constructed from `a` and so holds the same nine addresses.  Then
`allocate(1)` on `a` returns `108`, which is present in the free list of `b`, and
`allocate(1)` on `b` returns `108` as well, while the first `108` is still in
use. -/
theorem copy_hands_out_same_address :
    allocate 10 4 1 MyAllocator.fresh (Runtime.granting 10 100)
        = (.ok 109, ⟨[100, 101, 102, 103, 104, 105, 106, 107, 108]⟩,
            ⟨[(100, 4), (101, 4), (102, 4), (103, 4), (104, 4), (105, 4), (106, 4),
              (107, 4), (108, 4), (109, 4)], [], 1⟩)
      ∧ allocate 10 4 1 ⟨[100, 101, 102, 103, 104, 105, 106, 107, 108]⟩
          ⟨[(100, 4), (101, 4), (102, 4), (103, 4), (104, 4), (105, 4), (106, 4),
            (107, 4), (108, 4), (109, 4)], [], 1⟩
        = (.ok 108, ⟨[100, 101, 102, 103, 104, 105, 106, 107]⟩,
            ⟨[(100, 4), (101, 4), (102, 4), (103, 4), (104, 4), (105, 4), (106, 4),
              (107, 4), (108, 4), (109, 4)], [], 1⟩)
      ∧ 108 ∈ (MyAllocator.copy ⟨[100, 101, 102, 103, 104, 105, 106, 107, 108]⟩).free_blocks
      ∧ allocate 10 4 1 (MyAllocator.copy ⟨[100, 101, 102, 103, 104, 105, 106, 107, 108]⟩)
          ⟨[(100, 4), (101, 4), (102, 4), (103, 4), (104, 4), (105, 4), (106, 4),
            (107, 4), (108, 4), (109, 4)], [], 1⟩
        = (.ok 108, ⟨[100, 101, 102, 103, 104, 105, 106, 107]⟩,
            ⟨[(100, 4), (101, 4), (102, 4), (103, 4), (104, 4), (105, 4), (106, 4),
              (107, 4), (108, 4), (109, 4)], [], 1⟩) := by
  refine ⟨by decide, by decide, by decide, by decide⟩

/-! ## C15: the read of `free_blocks.back()` -/

/-- C15: for every `BlockSize ≥ 1`, every `n ≤ BlockSize` (`n = 0` included) and
every allocator state,
* the call never has undefined behaviour, whatever the provider does;
* when the free list is not empty, `allocate(n)` reads `back()` on that
  non-empty list and returns normally;
* when the free list is empty and the provider grants the `BlockSize`
  reservations, `expand()` returns normally and leaves a non-empty free list, on
  which `allocate(n)` reads `back()`, and the call returns normally. -/
theorem pop_is_safe (BlockSize sizeofT n : Nat) (a : MyAllocator) (rt : Runtime)
    (hB : 1 ≤ BlockSize) (hn : n ≤ BlockSize) :
    (allocate BlockSize sizeofT n a rt).1 ≠ .undefined
      ∧ (a.free_blocks ≠ [] →
          allocate BlockSize sizeofT n a rt = takeBack a rt
            ∧ ∃ p a1, takeBack a rt = (.ok p, a1, rt))
      ∧ (a.free_blocks = [] → BlockSize ≤ rt.successes →
          ∃ a1 rt1, expand BlockSize sizeofT a rt = (.ok (), a1, rt1)
            ∧ a1.free_blocks ≠ []
            ∧ allocate BlockSize sizeofT n a rt = takeBack a1 rt1
            ∧ ∃ p a2, takeBack a1 rt1 = (.ok p, a2, rt1)) := by
  have hn1 : ¬ (n > BlockSize) := by omega
  refine ⟨allocate_defined BlockSize sizeofT n a rt hB, ?_, ?_⟩
  · intro h
    have hne : a.free_blocks.isEmpty = false := by
      cases hF : a.free_blocks with
      | nil => exact absurd hF h
      | cons x xs => rfl
    refine ⟨by simp only [allocate, hn1, if_false, hne, Bool.false_eq_true], ?_⟩
    exact ⟨_, _, takeBack_of_ne_nil a rt h⟩
  · intro ha hs
    obtain ⟨F⟩ := a
    simp only at ha
    subst ha
    obtain ⟨ps, rt1, hloop, hlen, _⟩ :=
      expandLoop_ok sizeofT BlockSize ⟨[]⟩ { rt with expansions := rt.expansions + 1 } hs
    have hne : ([] ++ ps : List Addr) ≠ [] := by
      intro h0
      simp only [List.nil_append] at h0
      rw [h0] at hlen
      simp at hlen
      omega
    refine ⟨⟨[] ++ ps⟩, rt1, hloop, hne, ?_, ?_⟩
    · simp only [allocate, hn1, if_false, List.isEmpty_nil, if_true, expand, hloop]
    · exact ⟨_, _, takeBack_of_ne_nil ⟨[] ++ ps⟩ rt1 hne⟩

/-- Witness of `pop_is_safe`: `BlockSize = 3`, `n = 0`, empty free list. -/
theorem pop_is_safe_witness :
    1 ≤ 3 ∧ 0 ≤ 3
      ∧ allocate 3 4 0 ⟨[]⟩ (Runtime.granting 3 100)
          = (.ok 102, ⟨[100, 101]⟩, ⟨[(100, 4), (101, 4), (102, 4)], [], 1⟩)
      ∧ (allocate 3 4 0 ⟨[]⟩ (Runtime.granting 3 100)).1 ≠ .undefined :=
  ⟨by decide, by decide, by decide,
   (pop_is_safe 3 4 0 ⟨[]⟩ (Runtime.granting 3 100) (by decide) (by decide)).1⟩

/-! ## C17: `factorial` -/

/-- The recursion of `factorial(n)` ends: `n.toNat + 1` nested calls are enough
for an outcome, and more fuel gives the same outcome. -/
theorem factorial_fuel (fuel : Nat) :
    ∀ n : Int, n.toNat + 1 ≤ fuel →
      factorial fuel n ≠ none ∧ factorial fuel n = factorial (n.toNat + 1) n := by
  induction fuel with
  | zero => intro n h; omega
  | succ k ih =>
    intro n h
    by_cases hn : n ≤ 1
    · simp [factorial, hn]
    · have hk : (n - 1).toNat + 1 ≤ k := by omega
      have hk1 : (n - 1).toNat + 1 = n.toNat := by omega
      obtain ⟨h1, h2⟩ := ih (n - 1) hk
      have h3 : factorial n.toNat (n - 1) = factorial ((n - 1).toNat + 1) (n - 1) := by
        rw [hk1]
      constructor
      · simp only [factorial, hn, if_false]
        cases hr : factorial k (n - 1) with
        | none => exact absurd hr h1
        | some r =>
          cases r with
          | ok v => simp only []; split <;> simp
          | outOfMemory => simp
          | undefined => simp
      · simp only [factorial, hn, if_false]
        rw [h2, ← h3]

/-- C17: `factorial` terminates for every `n` (the recursion needs at most
`n.toNat + 1` nested calls, and more fuel does not change the outcome), and for
every `n` with `0 ≤ n ≤ 12` it returns the mathematical `n!` with no signed
overflow in any product (an overflow would make the outcome `undefined`); in
particular `factorial(0) = factorial(1) = 1`, `12!` fits in `int`, and the values
stored for the keys `0 .. 9` by the loop of `main` are `0! .. 9!`. -/
theorem factorial_correct (n : Int) :
    (∃ r, factorial (n.toNat + 1) n = some r
        ∧ ∀ fuel, n.toNat + 1 ≤ fuel → factorial fuel n = some r)
      ∧ (0 ≤ n → n ≤ 12 →
          factorial (n.toNat + 1) n = some (.ok (n.toNat.factorial : Int))
            ∧ INT_MIN ≤ (n.toNat.factorial : Int) ∧ (n.toNat.factorial : Int) ≤ INT_MAX)
      ∧ factorial 1 0 = some (.ok 1) ∧ factorial 2 1 = some (.ok 1)
      ∧ fillMap 10
          = [(0, some (.ok 1)), (1, some (.ok 1)), (2, some (.ok 2)), (3, some (.ok 6)),
             (4, some (.ok 24)), (5, some (.ok 120)), (6, some (.ok 720)),
             (7, some (.ok 5040)), (8, some (.ok 40320)), (9, some (.ok 362880))] := by
  refine ⟨?_, ?_, by decide, by decide, by decide⟩
  · cases hr : factorial (n.toNat + 1) n with
    | none => exact absurd hr (factorial_fuel (n.toNat + 1) n (Nat.le_refl _)).1
    | some r =>
      refine ⟨r, rfl, ?_⟩
      intro fuel hf
      rw [(factorial_fuel fuel n hf).2, hr]
  · intro h0 h12
    interval_cases n <;> refine ⟨by decide, by decide, by decide⟩

/-- Witness of `factorial_correct`: `factorial(12) = 479001600 = 12!`. -/
theorem factorial_correct_witness :
    (0 : Int) ≤ 12 ∧ (12 : Int) ≤ 12
      ∧ factorial ((12 : Int).toNat + 1) 12 = some (.ok 479001600)
      ∧ factorial 14 13 = some .undefined :=
  ⟨by decide, by decide,
   ((factorial_correct 12).2.1 (by decide) (by decide)).1, by decide⟩

/-! ## C16: `MyContainer::push_back` -/

theorem takeWhile_drop_length (l : List (Option Addr)) :
    ∀ k : Nat, k ≤ (l.takeWhile Option.isSome).length →
      ((l.drop k).takeWhile Option.isSome).length
        = (l.takeWhile Option.isSome).length - k := by
  induction l with
  | nil => intro k _; simp
  | cons x xs ih =>
    intro k hk
    cases k with
    | zero => simp
    | succ k =>
      cases x with
      | none => simp [List.takeWhile_cons] at hk
      | some v =>
        simp only [List.takeWhile_cons, Option.isSome_some, if_true, List.length_cons] at hk ⊢
        simp only [List.drop_succ_cons]
        rw [ih k (by omega)]
        omega

theorem successes_drop (rt rt1 : Runtime) (k : Nat) (hs : rt1.script = rt.script.drop k)
    (hk : k ≤ rt.successes) : rt1.successes = rt.successes - k := by
  unfold Runtime.successes at hk ⊢
  rw [hs]
  exact takeWhile_drop_length rt.script k hk

/-- One `allocate(1)` of a container whose provider still grants enough whole
expansions: it succeeds, keeps the invariant, and uses up one slot of the budget. -/
theorem allocate_one_budget (BlockSize sizeofT : Nat) (a : MyAllocator) (rt : Runtime)
    (out : List Addr) (hB : 1 ≤ BlockSize)
    (hg : Good (a.free_blocks ++ out) rt.addrs)
    (hbudget : 1 ≤ a.free_blocks.length + BlockSize * (rt.successes / BlockSize)) :
    ∃ p a1 rt1, allocate BlockSize sizeofT 1 a rt = (.ok p, a1, rt1)
      ∧ Good (a1.free_blocks ++ (out ++ [p])) rt1.addrs
      ∧ a.free_blocks.length + BlockSize * (rt.successes / BlockSize)
          = a1.free_blocks.length + BlockSize * (rt1.successes / BlockSize) + 1 := by
  obtain ⟨F⟩ := a
  cases hF : F using List.reverseRecOn with
  | nil =>
    subst hF
    simp only [List.length_nil, Nat.zero_add] at hbudget
    have hdiv : 1 ≤ rt.successes / BlockSize := by
      by_contra hc
      have h0 : rt.successes / BlockSize = 0 := Nat.lt_one_iff.mp (Nat.not_le.mp hc)
      rw [h0] at hbudget
      omega
    have hs : BlockSize ≤ rt.successes := by
      have := Nat.div_mul_le_self rt.successes BlockSize
      calc BlockSize = 1 * BlockSize := (Nat.one_mul _).symm
        _ ≤ rt.successes / BlockSize * BlockSize := Nat.mul_le_mul_right _ hdiv
        _ ≤ rt.successes := this
    obtain ⟨qs, q, rt1, h1, h2, _, h4, _, _, _⟩ :=
      allocate_empty_granted BlockSize sizeofT 1 rt hB hB hs
    refine ⟨q, ⟨qs⟩, rt1, h1, ?_, ?_⟩
    · exact (allocate_good BlockSize sizeofT 1 ⟨[]⟩ ⟨qs⟩ rt rt1 out _ h1 hg).1 q rfl
    · have hs1 := successes_drop rt rt1 BlockSize h4 hs
      have hd : rt1.successes / BlockSize = rt.successes / BlockSize - 1 := by
        rw [hs1]
        have := Nat.sub_mul_div rt.successes BlockSize 1 (by simpa using hs)
        simpa using this
      have hmul : BlockSize * (rt.successes / BlockSize)
          = BlockSize * (rt.successes / BlockSize - 1) + BlockSize := by
        obtain ⟨d, hd1⟩ : ∃ d, rt.successes / BlockSize = d + 1 :=
          ⟨rt.successes / BlockSize - 1, by omega⟩
        rw [hd1, Nat.add_sub_cancel, Nat.mul_add, Nat.mul_one]
      simp only [List.length_nil, Nat.zero_add]
      rw [hd, hmul]
      omega
  | append_singleton F1 p _ =>
    subst hF
    have h1 := allocate_pooled_append BlockSize sizeofT 1 F1 p rt hB
    refine ⟨p, ⟨F1⟩, rt, h1, ?_, ?_⟩
    · exact (allocate_good BlockSize sizeofT 1 ⟨F1 ++ [p]⟩ ⟨F1⟩ rt rt out _ h1 hg).1 p rfl
    · simp only [List.length_append, List.length_singleton]
      omega

theorem map_construct_append (elements : List Addr) (p : Addr) (v : Int) (mem : Memory)
    (hp : p ∉ elements) :
    (elements ++ [p]).map (construct p v mem) = elements.map mem ++ [some v] := by
  have h1 : elements.map (construct p v mem) = elements.map mem := by
    apply List.map_congr_left
    intro q hq
    have : q ≠ p := fun h => hp (h ▸ hq)
    simp [construct, this]
  simp [h1, construct]

theorem pushAll_spec (BlockSize sizeofT : Nat) (hB : 1 ≤ BlockSize) (vs : List Int) :
    ∀ (c : MyContainer) (rt : Runtime) (mem : Memory) (done : List Int),
      Good (c.alloc_.free_blocks ++ c.elements_) rt.addrs →
      c.elements_.map mem = done.map some →
      vs.length ≤ c.alloc_.free_blocks.length + BlockSize * (rt.successes / BlockSize) →
      ∃ c1 rt1 mem1,
        pushAll BlockSize sizeofT vs c rt mem = (vs.map (fun _ => Outcome.ok ()), c1, rt1, mem1)
          ∧ Good (c1.alloc_.free_blocks ++ c1.elements_) rt1.addrs
          ∧ c1.size_ = c.size_ + vs.length
          ∧ c1.elements_.length = c.elements_.length + vs.length
          ∧ c1.elements_.map mem1 = (done ++ vs).map some := by
  induction vs with
  | nil =>
    intro c rt mem done hg hm _
    exact ⟨c, rt, mem, by simp [pushAll], hg, by simp, by simp, by simpa using hm⟩
  | cons v vs ih =>
    intro c rt mem done hg hm hbudget
    simp only [List.length_cons] at hbudget
    obtain ⟨p, a1, rt1, halloc, hg1, hb1⟩ :=
      allocate_one_budget BlockSize sizeofT c.alloc_ rt c.elements_ hB hg (by omega)
    have hp : p ∉ c.elements_ := by
      have h1 := (List.nodup_append.mp hg1.1).2.1
      have h2 := List.nodup_append.mp h1
      intro hmem
      exact h2.2.2 hmem (List.mem_singleton.mpr rfl)
    have hm1 : (c.elements_ ++ [p]).map (construct p v mem) = (done ++ [v]).map some := by
      rw [map_construct_append c.elements_ p v mem hp, hm]
      simp
    obtain ⟨c2, rt2, mem2, hrest, hg2, hsize, hlen, hread⟩ :=
      ih ⟨a1, c.elements_ ++ [p], c.size_ + 1⟩ rt1 (construct p v mem) (done ++ [v])
        hg1 hm1 (by show vs.length ≤ a1.free_blocks.length + _; omega)
    refine ⟨c2, rt2, mem2, ?_, hg2, ?_, ?_, ?_⟩
    · simp only [pushAll, MyContainer.push_back, halloc, hrest, List.map_cons]
    · rw [hsize]
      show c.size_ + 1 + vs.length = c.size_ + (v :: vs).length
      simp only [List.length_cons]
      omega
    · rw [hlen]
      show (c.elements_ ++ [p]).length + vs.length = c.elements_.length + (v :: vs).length
      simp only [List.length_append, List.length_cons, List.length_nil]
      omega
    · rw [hread]; simp

/-- C16: for `BlockSize ≥ 1` and a provider that grants enough whole expansions
for `k` elements (and never answers with a reserved address), pushing the `k`
values `vs` with `push_back` into an initially empty container makes every call
return normally, after which `size()` is `k`, `empty()` holds exactly when
`k = 0`, the `k` addresses in `elements_` are pairwise distinct, and reading the
elements in stored order gives the pushed values in insertion order. -/
theorem push_back_keeps_values (BlockSize sizeofT : Nat) (rt : Runtime) (mem : Memory)
    (vs : List Int) (hB : 1 ≤ BlockSize)
    (hgrant : vs.length ≤ BlockSize * (rt.successes / BlockSize)) :
    ∃ c rt1 mem1,
      pushAll BlockSize sizeofT vs (MyContainer.init MyAllocator.fresh) rt mem
          = (vs.map (fun _ => Outcome.ok ()), c, rt1, mem1)
        ∧ c.size = vs.length
        ∧ (c.empty = true ↔ vs.length = 0)
        ∧ c.elements_.length = vs.length
        ∧ c.elements_.Nodup
        ∧ c.print mem1 = vs.map some := by
  have hg0 : Good ((MyContainer.init MyAllocator.fresh).alloc_.free_blocks
      ++ (MyContainer.init MyAllocator.fresh).elements_) rt.addrs :=
    ⟨List.nodup_nil, fun p hp => by
      simp [MyContainer.init, MyAllocator.copy, MyAllocator.fresh] at hp⟩
  obtain ⟨c, rt1, mem1, hpush, hg, hsize, hlen, hread⟩ :=
    pushAll_spec BlockSize sizeofT hB vs (MyContainer.init MyAllocator.fresh) rt mem []
      hg0 (by simp [MyContainer.init]) (by
        simp only [MyContainer.init, MyAllocator.copy, MyAllocator.fresh, List.length_nil,
          Nat.zero_add]
        exact hgrant)
  have hsize1 : c.size_ = vs.length := by
    rw [hsize]; simp [MyContainer.init]
  refine ⟨c, rt1, mem1, hpush, hsize1, ?_, ?_, (List.nodup_append.mp hg.1).2.1, ?_⟩
  · simp [MyContainer.empty, hsize1]
  · rw [hlen]; simp [MyContainer.init]
  · simpa [MyContainer.print] using hread

/-- Witness of `push_back_keeps_values`, the container of `main`: `BlockSize = 10`,
the values `0 .. 9`. -/
theorem push_back_keeps_values_witness :
    1 ≤ 10
      ∧ [(0 : Int), 1, 2, 3, 4, 5, 6, 7, 8, 9].length
          ≤ 10 * ((Runtime.granting 10 100).successes / 10)
      ∧ (pushAll 10 4 [0, 1, 2, 3, 4, 5, 6, 7, 8, 9] (MyContainer.init MyAllocator.fresh)
            (Runtime.granting 10 100) Memory.blank).2.1.elements_
          = [109, 108, 107, 106, 105, 104, 103, 102, 101, 100]
      ∧ ∃ c rt1 mem1,
          pushAll 10 4 [0, 1, 2, 3, 4, 5, 6, 7, 8, 9] (MyContainer.init MyAllocator.fresh)
              (Runtime.granting 10 100) Memory.blank
            = ([(0 : Int), 1, 2, 3, 4, 5, 6, 7, 8, 9].map (fun _ => Outcome.ok ()), c, rt1, mem1)
          ∧ c.size = [(0 : Int), 1, 2, 3, 4, 5, 6, 7, 8, 9].length
          ∧ (c.empty = true ↔ [(0 : Int), 1, 2, 3, 4, 5, 6, 7, 8, 9].length = 0)
          ∧ c.elements_.length = [(0 : Int), 1, 2, 3, 4, 5, 6, 7, 8, 9].length
          ∧ c.elements_.Nodup
          ∧ c.print mem1 = [(0 : Int), 1, 2, 3, 4, 5, 6, 7, 8, 9].map some :=
  ⟨by decide, by decide, by decide,
   push_back_keeps_values 10 4 (Runtime.granting 10 100) Memory.blank
     [0, 1, 2, 3, 4, 5, 6, 7, 8, 9] (by decide) (by decide)⟩

/-! ## The allocator with the buffer of `free_blocks` -/

/-- A `push_back` that finds room in the buffer appends and calls nothing. -/
theorem push_back_room (grow : Nat → Nat) (v : Buffered.PtrVector) (p : Addr) (rt : Runtime)
    (h : v.items.length < v.capacity) :
    Buffered.PtrVector.push_back grow v p rt
      = (.ok (), ⟨v.items ++ [p], v.capacity, v.buffer⟩, rt) := by
  simp [Buffered.PtrVector.push_back, h]

/-- A `push_back` that finds the buffer full and is refused by the provider throws
and leaves the vector unchanged. -/
theorem push_back_refused (grow : Nat → Nat) (v : Buffered.PtrVector) (p : Addr)
    (rt : Runtime) (h : ¬ v.items.length < v.capacity) (hs : rt.successes = 0) :
    ∃ rt1, Buffered.PtrVector.push_back grow v p rt = (.outOfMemory, v, rt1)
      ∧ rt1.live = rt.live ∧ rt1.expansions = rt.expansions := by
  obtain ⟨rt1, hnew⟩ :=
    operatorNew_of_successes_zero ((grow v.capacity * Buffered.sizeofPointer) % SIZE_MOD) rt hs
  obtain ⟨h1, h2⟩ := operatorNew_none _ rt rt1 hnew
  exact ⟨rt1, by simp [Buffered.PtrVector.push_back, h, hnew], h1, h2⟩

theorem mem_addrs_of_mem_live (rt : Runtime) (q bytes : Nat) (h : (q, bytes) ∈ rt.live) :
    q ∈ rt.addrs :=
  List.mem_map.mpr ⟨(q, bytes), h, rfl⟩

/-- What `push_back` keeps: the pool blocks stay reserved, the buffer stays a
reserved block that is no pool block, no expansion is counted, the call is never
undefined, and the vector is appended to on success and unchanged on refusal. -/
theorem push_back_kept (grow : Nat → Nat) (sizeofT : Nat) (S : List Addr)
    (v v1 : Buffered.PtrVector) (p : Addr) (rt rt1 : Runtime) (r : Outcome Unit)
    (hk : Buffered.Kept sizeofT S v rt)
    (h : Buffered.PtrVector.push_back grow v p rt = (r, v1, rt1)) :
    r ≠ .undefined ∧ Buffered.Kept sizeofT S v1 rt1 ∧ rt1.expansions = rt.expansions
      ∧ (r = .ok () → v1.items = v.items ++ [p]) ∧ (r = .outOfMemory → v1 = v) := by
  obtain ⟨hS, hbuf⟩ := hk
  unfold Buffered.PtrVector.push_back at h
  split at h
  · simp only [Prod.mk.injEq] at h
    obtain ⟨h1, h2, h3⟩ := h
    subst h1 h2 h3
    exact ⟨by simp, ⟨hS, hbuf⟩, rfl, fun _ => rfl, fun hr => by simp at hr⟩
  · split at h
    · next rt2 hnew =>
      simp only [Prod.mk.injEq] at h
      obtain ⟨h1, h2, h3⟩ := h
      subst h1 h2 h3
      obtain ⟨hlive, hexp⟩ := operatorNew_none _ rt rt2 hnew
      have haddrs : rt2.addrs = rt.addrs := by simp [Runtime.addrs, hlive]
      refine ⟨by simp, ⟨?_, ?_⟩, hexp, fun hr => by simp at hr, fun _ => rfl⟩
      · intro q hq; rw [hlive]; exact hS q hq
      · intro b hb; rw [haddrs]; exact hbuf b hb
    · next b rt2 hnew =>
      obtain ⟨hfresh, hlive, _, _, hexp⟩ := operatorNew_some _ rt rt2 b hnew
      have hbS : b ∉ S := fun hb => hfresh (mem_addrs_of_mem_live rt b sizeofT (hS b hb))
      have hbl : b ∈ rt2.addrs := by simp [Runtime.addrs, hlive]
      split at h
      · simp only [Prod.mk.injEq] at h
        obtain ⟨h1, h2, h3⟩ := h
        subst h1 h2 h3
        refine ⟨by simp, ⟨?_, ?_⟩, hexp, fun _ => rfl, fun hr => by simp at hr⟩
        · intro q hq; rw [hlive]; exact List.mem_append_left _ (hS q hq)
        · intro c hc
          simp only [Option.some.injEq] at hc
          subst hc
          exact ⟨hbl, hbS⟩
      · next old hold =>
        obtain ⟨hold1, hold2⟩ := hbuf old hold
        have hold3 : old ∈ rt2.addrs := by
          simp only [Runtime.addrs, hlive, List.map_append, List.mem_append]
          exact Or.inl hold1
        have hdel : operatorDelete old rt2
            = (.ok (), { rt2 with live := rt2.live.filter (fun x => x.1 != old) }) := by
          simp [operatorDelete, hold3]
        rw [hdel] at h
        simp only [Prod.mk.injEq] at h
        obtain ⟨h1, h2, h3⟩ := h
        subst h1 h2 h3
        have hne : b ≠ old := fun hb => hfresh (hb ▸ hold1)
        refine ⟨by simp, ⟨?_, ?_⟩, hexp, fun _ => rfl, fun hr => by simp at hr⟩
        · intro q hq
          have hq1 : (q, sizeofT) ∈ rt2.live := by
            rw [hlive]; exact List.mem_append_left _ (hS q hq)
          have hq2 : q ≠ old := fun hqo => hold2 (hqo ▸ hq)
          show (q, sizeofT) ∈ rt2.live.filter (fun x => x.1 != old)
          exact List.mem_filter.mpr ⟨hq1, by simpa using hq2⟩
        · intro c hc
          simp only [Option.some.injEq] at hc
          subst hc
          refine ⟨?_, hbS⟩
          show b ∈ (rt2.live.filter (fun x => x.1 != old)).map Prod.fst
          obtain ⟨x, hx, hxb⟩ := List.mem_map.mp hbl
          exact List.mem_map.mpr ⟨x, List.mem_filter.mpr ⟨hx, by simpa [hxb] using hne⟩, hxb⟩

/-- What the expansion loop keeps and produces. -/
theorem buffered_expandLoop_kept (grow : Nat → Nat) (sizeofT : Nat) :
    ∀ (k : Nat) (a a1 : Buffered.MyAllocator) (rt rt1 : Runtime) (S ps : List Addr)
      (r : Outcome Unit),
      Buffered.Kept sizeofT S a.free_blocks rt →
      Buffered.expandLoop grow sizeofT k a rt = (r, a1, rt1, ps) →
      r ≠ .undefined ∧ Buffered.Kept sizeofT (S ++ ps) a1.free_blocks rt1
        ∧ rt1.expansions = rt.expansions ∧ ps.length ≤ k
        ∧ (∃ qs, a1.free_blocks.items = a.free_blocks.items ++ qs
            ∧ qs.length ≤ ps.length ∧ ∀ q ∈ qs, q ∈ ps)
        ∧ (r = .ok () → a1.free_blocks.items = a.free_blocks.items ++ ps ∧ ps.length = k) := by
  intro k
  induction k with
  | zero =>
    intro a a1 rt rt1 S ps r hk h
    simp only [Buffered.expandLoop, Prod.mk.injEq] at h
    obtain ⟨h1, h2, h3, h4⟩ := h
    subst h1 h2 h3 h4
    refine ⟨by simp, by simpa using hk, rfl, Nat.le_refl _, ⟨[], by simp, by simp, by simp⟩,
      fun _ => ⟨by simp, rfl⟩⟩
  | succ k ih =>
    intro a a1 rt rt1 S ps r hk h
    simp only [Buffered.expandLoop] at h
    split at h
    · next rt2 hnew =>
      simp only [Prod.mk.injEq] at h
      obtain ⟨h1, h2, h3, h4⟩ := h
      subst h1 h2 h3 h4
      obtain ⟨hlive, hexp⟩ := operatorNew_none _ rt rt2 hnew
      have haddrs : rt2.addrs = rt.addrs := by simp [Runtime.addrs, hlive]
      refine ⟨by simp, ⟨?_, ?_⟩, hexp, Nat.zero_le _, ⟨[], by simp, by simp, by simp⟩,
        fun hr => by simp at hr⟩
      · intro q hq
        rw [List.append_nil] at hq
        rw [hlive]; exact hk.1 q hq
      · intro b hb
        rw [List.append_nil, haddrs]; exact hk.2 b hb
    · next p rt2 hnew =>
      obtain ⟨hfresh, hlive, _, _, hexp⟩ := operatorNew_some _ rt rt2 p hnew
      have hk2 : Buffered.Kept sizeofT (S ++ [p]) a.free_blocks rt2 := by
        constructor
        · intro q hq
          rw [hlive]
          rcases List.mem_append.mp hq with h1 | h1
          · exact List.mem_append_left _ (hk.1 q h1)
          · rw [List.mem_singleton.mp h1]; simp
        · intro b hb
          obtain ⟨hb1, hb2⟩ := hk.2 b hb
          refine ⟨?_, ?_⟩
          · simp only [Runtime.addrs, hlive, List.map_append, List.mem_append]
            exact Or.inl hb1
          · intro hmem
            rcases List.mem_append.mp hmem with h1 | h1
            · exact hb2 h1
            · rw [List.mem_singleton.mp h1] at hb1
              exact hfresh hb1
      split at h
      · next v rt3 hpush =>
        obtain ⟨_, hk3, hexp3, hitems, _⟩ :=
          push_back_kept grow sizeofT (S ++ [p]) a.free_blocks v p rt2 rt3 _ hk2 hpush
        have hitems1 := hitems rfl
        cases hrest : Buffered.expandLoop grow sizeofT k ⟨v⟩ rt3 with
        | mk r4 rest4 =>
          obtain ⟨a4, rt4, ps4⟩ := rest4
          rw [hrest] at h
          simp only [Prod.mk.injEq] at h
          obtain ⟨h1, h2, h3, h4⟩ := h
          subst h1 h2 h3 h4
          obtain ⟨hu, hk4, hexp4, hlen4, ⟨qs, hqs1, hqs2, hqs3⟩, hok⟩ :=
            ih ⟨v⟩ a4 rt3 rt4 (S ++ [p]) ps4 r4 hk3 hrest
          refine ⟨hu, ?_, by omega, by simp only [List.length_cons]; omega, ?_, ?_⟩
          · have : S ++ p :: ps4 = S ++ [p] ++ ps4 := by simp
            rw [this]; exact hk4
          · refine ⟨p :: qs, ?_, by simp only [List.length_cons]; omega, ?_⟩
            · rw [hqs1]
              show v.items ++ qs = a.free_blocks.items ++ p :: qs
              rw [hitems1]; simp
            · intro q hq
              rcases List.mem_cons.mp hq with h1 | h1
              · rw [h1]; exact List.mem_cons_self _ _
              · exact List.mem_cons_of_mem _ (hqs3 q h1)
          · intro hr
            obtain ⟨h5, h6⟩ := hok hr
            refine ⟨?_, by simp only [List.length_cons]; omega⟩
            rw [h5]
            show v.items ++ ps4 = a.free_blocks.items ++ p :: ps4
            rw [hitems1]; simp
      · next v rt3 hpush =>
        obtain ⟨_, hk3, hexp3, _, hsame⟩ :=
          push_back_kept grow sizeofT (S ++ [p]) a.free_blocks v p rt2 rt3 _ hk2 hpush
        have hv := hsame rfl
        simp only [Prod.mk.injEq] at h
        obtain ⟨h1, h2, h3, h4⟩ := h
        subst h1 h2 h3 h4
        refine ⟨by simp, hk3, by omega, by simp, ⟨[], by simp [hv], by simp, by simp⟩,
          fun hr => by simp at hr⟩
      · next v rt3 hpush =>
        have := (push_back_kept grow sizeofT (S ++ [p]) a.free_blocks v p rt2 rt3 _ hk2 hpush).1
        exact absurd rfl this

theorem buffered_takeBack_ok (a a1 : Buffered.MyAllocator) (rt rt1 : Runtime) (p : Addr)
    (h : Buffered.takeBack a rt = (.ok p, a1, rt1)) :
    a.free_blocks.items = a1.free_blocks.items ++ [p] ∧ rt1 = rt
      ∧ a1.free_blocks.buffer = a.free_blocks.buffer := by
  unfold Buffered.takeBack at h
  split at h
  · simp at h
  · next q hq =>
    simp only [Prod.mk.injEq, Outcome.ok.injEq] at h
    obtain ⟨h1, h2, h3⟩ := h
    subst h1 h2 h3
    have hne : a.free_blocks.items ≠ [] := by
      intro h0; rw [h0] at hq; simp at hq
    have hlast : a.free_blocks.items.getLast hne = q := by
      have := List.getLast?_eq_getLast _ hne
      rw [this] at hq
      exact Option.some.inj hq
    refine ⟨?_, rfl, rfl⟩
    show a.free_blocks.items = a.free_blocks.items.dropLast ++ [q]
    rw [← hlast]
    exact (List.dropLast_append_getLast hne).symm

theorem buffered_takeBack_not_outOfMemory (a : Buffered.MyAllocator) (rt : Runtime) :
    (Buffered.takeBack a rt).1 ≠ .outOfMemory := by
  unfold Buffered.takeBack
  split <;> simp

/-- A pooled `allocate` on a non-empty free list: it pops, reserves nothing and
calls nothing. -/
theorem buffered_allocate_nonempty (grow : Nat → Nat) (BlockSize sizeofT n : Nat)
    (a : Buffered.MyAllocator) (rt : Runtime) (hn : n ≤ BlockSize)
    (hne : a.free_blocks.items ≠ []) :
    ∃ p, Buffered.allocate grow BlockSize sizeofT n a rt
        = (.ok p, ⟨⟨a.free_blocks.items.dropLast, a.free_blocks.capacity,
            a.free_blocks.buffer⟩⟩, rt, [])
      ∧ a.free_blocks.items = a.free_blocks.items.dropLast ++ [p] := by
  have hn1 : ¬ (n > BlockSize) := by omega
  have he : a.free_blocks.items.isEmpty = false := by
    cases hF : a.free_blocks.items with
    | nil => exact absurd hF hne
    | cons x xs => rfl
  refine ⟨a.free_blocks.items.getLast hne, ?_, (List.dropLast_append_getLast hne).symm⟩
  simp only [Buffered.allocate, hn1, if_false, he, Bool.false_eq_true, Buffered.takeBack,
    List.getLast?_eq_getLast _ hne]

/-- A pooled `allocate` on an empty free list: it makes one expansion; either the
expansion reserves `BlockSize` blocks and the last one is returned, or the call
throws with some of the blocks reserved, or (for `BlockSize = 0`) it is
undefined. -/
theorem buffered_allocate_empty (grow : Nat → Nat) (BlockSize sizeofT n : Nat)
    (a a1 : Buffered.MyAllocator) (rt rt1 : Runtime) (S ps : List Addr) (r : Outcome Addr)
    (hn : n ≤ BlockSize) (he : a.free_blocks.items = [])
    (hk : Buffered.Kept sizeofT S a.free_blocks rt)
    (h : Buffered.allocate grow BlockSize sizeofT n a rt = (r, a1, rt1, ps)) :
    rt1.expansions = rt.expansions + 1
      ∧ Buffered.Kept sizeofT (S ++ ps) a1.free_blocks rt1
      ∧ ps.length ≤ BlockSize
      ∧ ((∃ p, r = .ok p ∧ ps = a1.free_blocks.items ++ [p] ∧ ps.length = BlockSize)
          ∨ (r = .outOfMemory ∧ a1.free_blocks.items.length ≤ ps.length
              ∧ ∀ q ∈ a1.free_blocks.items, q ∈ ps)
          ∨ r = .undefined) := by
  have hn1 : ¬ (n > BlockSize) := by omega
  have he1 : a.free_blocks.items.isEmpty = true := by rw [he]; rfl
  have hk1 : Buffered.Kept sizeofT S a.free_blocks
      { rt with expansions := rt.expansions + 1 } := hk
  simp only [Buffered.allocate, hn1, if_false, he1, if_true, Buffered.expand] at h
  cases hloop : Buffered.expandLoop grow sizeofT BlockSize a
      { rt with expansions := rt.expansions + 1 } with
  | mk r2 rest2 =>
    obtain ⟨a2, rt2, ps2⟩ := rest2
    obtain ⟨hu, hk2, hexp2, hlen2, ⟨qs, hqs1, hqs2, hqs3⟩, hok⟩ :=
      buffered_expandLoop_kept grow sizeofT BlockSize a a2 _ rt2 S ps2 r2 hk1 hloop
    rw [hloop] at h
    rw [he, List.nil_append] at hqs1
    cases r2 with
    | ok u =>
      obtain ⟨hitems, hlenB⟩ := hok rfl
      rw [he, List.nil_append] at hitems
      cases htb : Buffered.takeBack a2 rt2 with
      | mk r3 rest3 =>
        obtain ⟨a3, rt3⟩ := rest3
        simp only [htb, Prod.mk.injEq] at h
        obtain ⟨h1, h2, h3, h4⟩ := h
        subst h1 h2 h3 h4
        cases r3 with
        | ok p =>
          obtain ⟨h5, h6, h7⟩ := buffered_takeBack_ok a2 a3 rt2 rt3 p htb
          subst h6
          refine ⟨hexp2, ⟨hk2.1, ?_⟩, hlen2, Or.inl ⟨p, rfl, ?_, hlenB⟩⟩
          · intro b hb
            rw [h7] at hb
            exact hk2.2 b hb
          · rw [← h5, hitems]
        | outOfMemory =>
          have := buffered_takeBack_not_outOfMemory a2 rt2
          rw [htb] at this
          exact absurd rfl this
        | undefined =>
          have h6 : a3 = a2 ∧ rt3 = rt2 := by
            unfold Buffered.takeBack at htb
            split at htb
            · simp only [Prod.mk.injEq, true_and] at htb
              exact ⟨htb.1.symm, htb.2.symm⟩
            · simp at htb
          obtain ⟨h7, h8⟩ := h6
          subst h7 h8
          exact ⟨hexp2, hk2, hlen2, Or.inr (Or.inr rfl)⟩
    | outOfMemory =>
      simp only [Prod.mk.injEq] at h
      obtain ⟨h1, h2, h3, h4⟩ := h
      subst h1 h2 h3 h4
      refine ⟨hexp2, hk2, hlen2, Or.inr (Or.inl ⟨rfl, ?_, ?_⟩)⟩
      · rw [hqs1]; exact hqs2
      · intro q hq; rw [hqs1] at hq; exact hqs3 q hq
    | undefined => exact absurd rfl hu

theorem mul_expansions_succ (BlockSize e e0 : Nat) (h : e0 ≤ e) :
    BlockSize * (e + 1 - e0) = BlockSize * (e - e0) + BlockSize := by
  have : e + 1 - e0 = (e - e0) + 1 := by omega
  rw [this, Nat.mul_succ]

/-- One pooled client call keeps the accounting, only adds pool blocks, and makes
an expansion only as an `allocate` that finds the free list empty. -/
theorem buffered_step_accounted (grow : Nat → Nat) (BlockSize sizeofT : Nat) (rt0 : Runtime)
    (w w1 : Buffered.World) (op : Op) (hcount : op.count ≤ BlockSize)
    (hstep : Buffered.step grow BlockSize sizeofT w op = some w1)
    (hJ : Buffered.Accounted BlockSize sizeofT rt0 w) :
    Buffered.Accounted BlockSize sizeofT rt0 w1
      ∧ (∃ added, w1.reserved = w.reserved ++ added)
      ∧ (w1.rt.expansions = w.rt.expansions
          ∨ (w1.rt.expansions = w.rt.expansions + 1 ∧ w.pool.free_blocks.items = []
              ∧ ∃ n, op = .alloc n)) := by
  obtain ⟨pool, rt, out, reserved, failures⟩ := w
  obtain ⟨hK, hL, hM, hE, hU, hF⟩ := hJ
  simp only at hK hL hM hE hU hF
  cases op with
  | alloc n =>
    have hn : n ≤ BlockSize := hcount
    by_cases hne : pool.free_blocks.items = []
    · cases halloc : Buffered.allocate grow BlockSize sizeofT n pool rt with
      | mk r rest =>
        obtain ⟨a1, rt1, ps⟩ := rest
        obtain ⟨hexp, hK1, hlen, hcase⟩ :=
          buffered_allocate_empty grow BlockSize sizeofT n pool a1 rt rt1 reserved ps r hn hne
            hK halloc
        have hmul := mul_expansions_succ BlockSize rt.expansions rt0.expansions hE
        rw [hne, List.nil_append] at hL hM hF
        simp only [Buffered.step, halloc] at hstep
        rcases hcase with ⟨p, hr, hps, hB⟩ | ⟨hr, hlen1, hsub⟩ | hr
        · subst hr
          simp only [Option.some.injEq] at hstep
          subst hstep
          have hlen2 : a1.free_blocks.items.length + 1 = ps.length := by
            rw [hps]; simp
          refine ⟨⟨hK1, ?_, ?_, ?_, ?_, ?_⟩, ⟨ps, rfl⟩, Or.inr ⟨hexp, hne, n, rfl⟩⟩
          · show (a1.free_blocks.items ++ (out ++ [p])).length ≤ (reserved ++ ps).length
            simp only [List.length_append, List.length_cons, List.length_nil]
            omega
          · intro q hq
            show q ∈ reserved ++ ps
            rcases List.mem_append.mp hq with h1 | h1
            · exact List.mem_append_right _ (by rw [hps]; exact List.mem_append_left _ h1)
            · rcases List.mem_append.mp h1 with h2 | h2
              · exact List.mem_append_left _ (hM q h2)
              · exact List.mem_append_right _ (by rw [hps]; exact List.mem_append_right _ h2)
          · show rt0.expansions ≤ rt1.expansions
            omega
          · show (reserved ++ ps).length ≤ BlockSize * (rt1.expansions - rt0.expansions)
            rw [List.length_append, hexp, hmul]
            omega
          · intro hf
            obtain ⟨hperm, hlenR⟩ := hF hf
            constructor
            · show (a1.free_blocks.items ++ (out ++ [p])).Perm (reserved ++ ps)
              have h1 : (a1.free_blocks.items ++ (out ++ [p])).Perm
                  (out ++ (a1.free_blocks.items ++ [p])) := by
                rw [← List.append_assoc, ← List.append_assoc]
                exact List.Perm.append_right _ List.perm_append_comm
              rw [← hps] at h1
              exact h1.trans (List.Perm.append_right _ hperm)
            · show (reserved ++ ps).length = BlockSize * (rt1.expansions - rt0.expansions)
              rw [List.length_append, hexp, hmul]
              omega
        · subst hr
          simp only [Option.some.injEq] at hstep
          subst hstep
          refine ⟨⟨hK1, ?_, ?_, ?_, ?_, ?_⟩, ⟨ps, rfl⟩, Or.inr ⟨hexp, hne, n, rfl⟩⟩
          · show (a1.free_blocks.items ++ out).length ≤ (reserved ++ ps).length
            simp only [List.length_append]
            omega
          · intro q hq
            show q ∈ reserved ++ ps
            rcases List.mem_append.mp hq with h1 | h1
            · exact List.mem_append_right _ (hsub q h1)
            · exact List.mem_append_left _ (hM q h1)
          · show rt0.expansions ≤ rt1.expansions
            omega
          · show (reserved ++ ps).length ≤ BlockSize * (rt1.expansions - rt0.expansions)
            rw [List.length_append, hexp, hmul]
            omega
          · intro hf
            exact absurd hf (Nat.succ_ne_zero _)
        · subst hr
          simp at hstep
    · obtain ⟨p, halloc, hitems⟩ :=
        buffered_allocate_nonempty grow BlockSize sizeofT n pool rt hn hne
      simp only [Buffered.step, halloc, Option.some.injEq] at hstep
      subst hstep
      have hperm : (pool.free_blocks.items.dropLast ++ (out ++ [p])).Perm
          (pool.free_blocks.items ++ out) := by
        conv_rhs => rw [hitems]
        rw [List.append_assoc]
        exact List.Perm.append_left _ List.perm_append_comm
      refine ⟨⟨?_, ?_, ?_, hE, ?_, ?_⟩, ⟨[], rfl⟩, Or.inl rfl⟩
      · show Buffered.Kept sizeofT (reserved ++ []) _ rt
        rw [List.append_nil]
        exact ⟨hK.1, fun b hb => hK.2 b hb⟩
      · show (pool.free_blocks.items.dropLast ++ (out ++ [p])).length ≤ (reserved ++ []).length
        rw [List.append_nil, hperm.length_eq]
        exact hL
      · intro q hq
        show q ∈ reserved ++ []
        rw [List.append_nil]
        exact hM q (hperm.subset hq)
      · show (reserved ++ []).length ≤ _
        rw [List.append_nil]; exact hU
      · intro hf
        obtain ⟨h1, h2⟩ := hF hf
        refine ⟨?_, ?_⟩
        · show (pool.free_blocks.items.dropLast ++ (out ++ [p])).Perm (reserved ++ [])
          rw [List.append_nil]
          exact hperm.trans h1
        · show (reserved ++ []).length = _
          rw [List.append_nil]; exact h2
  | dealloc p n =>
    have hn : ¬ (n > BlockSize) := by
      have : n ≤ BlockSize := hcount
      omega
    simp only [Buffered.step] at hstep
    split at hstep
    · next hp =>
      cases hpush : Buffered.PtrVector.push_back grow pool.free_blocks p rt with
      | mk r rest =>
        obtain ⟨v, rt1⟩ := rest
        obtain ⟨hu, hK1, hexp, hitems, _⟩ :=
          push_back_kept grow sizeofT reserved pool.free_blocks v p rt rt1 r hK hpush
        simp only [Buffered.deallocate, hn, if_false, hpush] at hstep
        cases r with
        | ok u =>
          simp only [Option.some.injEq] at hstep
          subst hstep
          have hitems1 := hitems rfl
          have hperm : (v.items ++ out.erase p).Perm (pool.free_blocks.items ++ out) := by
            rw [hitems1, List.append_assoc]
            exact List.Perm.append_left _ (List.perm_cons_erase hp).symm
          refine ⟨⟨hK1, ?_, ?_, ?_, ?_, ?_⟩, ⟨[], by simp⟩, Or.inl hexp⟩
          · show (v.items ++ out.erase p).length ≤ reserved.length
            rw [hperm.length_eq]; exact hL
          · intro q hq
            exact hM q (hperm.subset hq)
          · show rt0.expansions ≤ rt1.expansions
            omega
          · show reserved.length ≤ BlockSize * (rt1.expansions - rt0.expansions)
            rw [hexp]; exact hU
          · intro hf
            obtain ⟨h1, h2⟩ := hF hf
            refine ⟨hperm.trans h1, ?_⟩
            show reserved.length = BlockSize * (rt1.expansions - rt0.expansions)
            rw [hexp]; exact h2
        | outOfMemory => simp at hstep
        | undefined => simp at hstep
    · simp at hstep

theorem buffered_run_accounted (grow : Nat → Nat) (BlockSize sizeofT : Nat) (rt0 : Runtime)
    (ops : List Op) :
    ∀ (w w1 : Buffered.World), (∀ o ∈ ops, o.count ≤ BlockSize) →
      Buffered.run grow BlockSize sizeofT w ops = some w1 →
      Buffered.Accounted BlockSize sizeofT rt0 w →
      Buffered.Accounted BlockSize sizeofT rt0 w1 := by
  induction ops with
  | nil =>
    intro w w1 _ h hJ
    simp only [Buffered.run, Option.some.injEq] at h
    subst h
    exact hJ
  | cons op ops ih =>
    intro w w1 hc h hJ
    simp only [Buffered.run] at h
    split at h
    · simp at h
    · next w2 hstep =>
      have h2 := (buffered_step_accounted grow BlockSize sizeofT rt0 w w2 op
        (hc op (List.mem_cons_self _ _)) hstep hJ).1
      exact ih w2 w1 (fun o ho => hc o (List.mem_cons_of_mem _ ho)) h h2

/-! ## C13: the reserved pool over a run of pooled calls -/

/-- C13 as stated fails when the provider refuses a request during an expansion.
With `BlockSize = 2` and a fresh allocator, `allocate(1)` makes one expansion.
If the provider grants the first block and the buffer of `free_blocks` and then
refuses the second block, one pool block is reserved, and `1` is not
`BlockSize` times the number of expansions, `2 * 1`.  If the provider grants the
first block and refuses the buffer the `push_back` needs, the block is reserved
but is neither free nor handed out, and `1` is not `0 + 0`. -/
theorem refused_expansion_breaks_block_count :
    Buffered.run Buffered.doubling 2 4
        (Buffered.World.init ⟨[], [some 100, some 100, none], 0⟩) [.alloc 1]
        = some ⟨⟨⟨[100], 1, some 101⟩⟩, ⟨[(100, 4), (101, 8)], [], 1⟩, [], [100], 1⟩
      ∧ ([100] : List Addr).length ≠ 2 * 1
      ∧ Buffered.run Buffered.doubling 2 4
          (Buffered.World.init ⟨[], [some 100, none], 0⟩) [.alloc 1]
        = some ⟨⟨⟨[], 0, none⟩⟩, ⟨[(100, 4)], [], 1⟩, [], [100], 1⟩
      ∧ ([100] : List Addr).length ≠ ([] : List Addr).length + ([] : List Addr).length := by
  refine ⟨by decide, by decide, by decide, by decide⟩

/-- C13 (amended): start from a freshly constructed allocator in a runtime `rt0`
and let the client make any sequence `ops` of `allocate`/`deallocate` calls with
counts `≤ BlockSize`, `deallocate` being passed only handed-out addresses; let
`w` be the state reached and `op` one more such call, leading to `w1`.  The pool
blocks are the blocks reserved by the expansions (`reserved`).  Then, for every
growth policy of the vector,
* every pool block is still a reserved block of `sizeof(T)` bytes, before and
  after `op`: none is ever released to the provider;
* the free and the handed-out addresses are pool blocks, and
  `|free_blocks|` plus the number of handed-out addresses is at most the number
  of pool blocks;
* the number of pool blocks is at most `BlockSize` times the number of
  expansions made;
* as long as no call has failed (the provider has refused no request), the pool
  blocks are exactly the free and the handed-out addresses, and their number is
  exactly `BlockSize` times the number of expansions;
* the call `op` only adds pool blocks (their number does not decrease);
* the call `op` makes an expansion only if it is an `allocate` that finds
  `free_blocks` empty, and then it makes exactly one. -/
theorem pool_never_shrinks (grow : Nat → Nat) (BlockSize sizeofT : Nat) (rt0 : Runtime)
    (ops : List Op) (op : Op) (w w1 : Buffered.World)
    (hops : ∀ o ∈ ops, o.count ≤ BlockSize) (hop : op.count ≤ BlockSize)
    (hrun : Buffered.run grow BlockSize sizeofT (Buffered.World.init rt0) ops = some w)
    (hstep : Buffered.step grow BlockSize sizeofT w op = some w1) :
    (∀ p ∈ w.reserved, (p, sizeofT) ∈ w.rt.live ∧ (p, sizeofT) ∈ w1.rt.live)
      ∧ (∀ p ∈ w.pool.free_blocks.items ++ w.out, p ∈ w.reserved)
      ∧ w.pool.free_blocks.items.length + w.out.length ≤ w.reserved.length
      ∧ w.reserved.length ≤ BlockSize * (w.rt.expansions - rt0.expansions)
      ∧ (w.failures = 0 →
          (w.pool.free_blocks.items ++ w.out).Perm w.reserved
            ∧ w.reserved.length = w.pool.free_blocks.items.length + w.out.length
            ∧ w.reserved.length = BlockSize * (w.rt.expansions - rt0.expansions))
      ∧ (∃ added, w1.reserved = w.reserved ++ added)
      ∧ (w1.rt.expansions = w.rt.expansions
          ∨ (w1.rt.expansions = w.rt.expansions + 1 ∧ w.pool.free_blocks.items = []
              ∧ ∃ n, op = .alloc n)) := by
  have h0 : Buffered.Accounted BlockSize sizeofT rt0 (Buffered.World.init rt0) := by
    refine ⟨⟨by simp [Buffered.World.init], ?_⟩,
      by simp [Buffered.World.init, Buffered.MyAllocator.fresh, Buffered.PtrVector.empty],
      by simp [Buffered.World.init, Buffered.MyAllocator.fresh, Buffered.PtrVector.empty],
      Nat.le_refl _, by simp [Buffered.World.init], ?_⟩
    · intro b hb
      simp [Buffered.World.init, Buffered.MyAllocator.fresh, Buffered.PtrVector.empty] at hb
    · intro _
      simp [Buffered.World.init, Buffered.MyAllocator.fresh, Buffered.PtrVector.empty]
  have hJ := buffered_run_accounted grow BlockSize sizeofT rt0 ops _ w hops hrun h0
  obtain ⟨hJ1, ⟨added, hadd⟩, hexp⟩ :=
    buffered_step_accounted grow BlockSize sizeofT rt0 w w1 op hop hstep hJ
  obtain ⟨hK, hL, hM, _, hU, hF⟩ := hJ
  refine ⟨?_, hM, by simpa using hL, hU, ?_, ⟨added, hadd⟩, hexp⟩
  · intro p hp
    refine ⟨hK.1 p hp, hJ1.1.1 p ?_⟩
    rw [hadd]
    exact List.mem_append_left _ hp
  · intro hf
    obtain ⟨h1, h2⟩ := hF hf
    refine ⟨h1, ?_, h2⟩
    have := h1.length_eq
    simpa using this.symm

/-- Witness of `pool_never_shrinks`: `BlockSize = 2`, the doubling policy, a run of
pooled calls followed by an `allocate(1)` that finds the free list empty and
expands; the address `101`, once the first buffer of the vector, is reserved anew
as a pool block. -/
theorem pool_never_shrinks_witness :
    Buffered.run Buffered.doubling 2 4
        (Buffered.World.init
          ⟨[(50, 8)], [some 100, some 100, some 100, some 100, some 100, some 100], 0⟩)
        [.alloc 1, .alloc 2, .dealloc 102 1, .alloc 0]
        = some ⟨⟨⟨[], 2, some 103⟩⟩,
            ⟨[(50, 8), (100, 4), (102, 4), (103, 16)], [some 100, some 100], 1⟩,
            [100, 102], [100, 102], 0⟩
      ∧ Buffered.step Buffered.doubling 2 4
          ⟨⟨⟨[], 2, some 103⟩⟩,
            ⟨[(50, 8), (100, 4), (102, 4), (103, 16)], [some 100, some 100], 1⟩,
            [100, 102], [100, 102], 0⟩ (.alloc 1)
        = some ⟨⟨⟨[101], 2, some 103⟩⟩,
            ⟨[(50, 8), (100, 4), (102, 4), (103, 16), (101, 4), (104, 4)], [], 2⟩,
            [100, 102, 104], [100, 102, 101, 104], 0⟩
      ∧ ([100, 102] : List Addr).length ≤ 2 * (1 - 0) :=
  ⟨by decide, by decide,
   (pool_never_shrinks Buffered.doubling 2 4
      ⟨[(50, 8)], [some 100, some 100, some 100, some 100, some 100, some 100], 0⟩
      [.alloc 1, .alloc 2, .dealloc 102 1, .alloc 0] (.alloc 1)
      ⟨⟨⟨[], 2, some 103⟩⟩,
        ⟨[(50, 8), (100, 4), (102, 4), (103, 16)], [some 100, some 100], 1⟩,
        [100, 102], [100, 102], 0⟩
      ⟨⟨⟨[101], 2, some 103⟩⟩,
        ⟨[(50, 8), (100, 4), (102, 4), (103, 16), (101, 4), (104, 4)], [], 2⟩,
        [100, 102, 104], [100, 102, 101, 104], 0⟩
      (by decide) (by decide) (by decide) (by decide)).2.2.2.1⟩

/-! ## C10: `deallocate` on the pooled path -/

/-- With room in the buffer of `free_blocks`, a pooled `deallocate` returns,
appends `p` at the end and calls nothing. -/
theorem buffered_deallocate_room (grow : Nat → Nat) (BlockSize : Nat) (p : Addr) (n : Nat)
    (a : Buffered.MyAllocator) (rt : Runtime) (hn : n ≤ BlockSize)
    (hroom : a.free_blocks.items.length < a.free_blocks.capacity) :
    Buffered.deallocate grow BlockSize p n a rt
      = (.returned, ⟨⟨a.free_blocks.items ++ [p], a.free_blocks.capacity,
          a.free_blocks.buffer⟩⟩, rt) := by
  have h : ¬ (n > BlockSize) := by omega
  simp [Buffered.deallocate, h, push_back_room grow a.free_blocks p rt hroom]

/-- With a full buffer and a provider that refuses, a pooled `deallocate` ends in
`std::terminate`, for every address and every growth policy. -/
theorem buffered_deallocate_refused (grow : Nat → Nat) (BlockSize : Nat) (p : Addr) (n : Nat)
    (a : Buffered.MyAllocator) (rt : Runtime) (hn : n ≤ BlockSize)
    (hfull : ¬ a.free_blocks.items.length < a.free_blocks.capacity)
    (hs : rt.successes = 0) :
    (Buffered.deallocate grow BlockSize p n a rt).1 = .terminated
      ∧ (Buffered.deallocate grow BlockSize p n a rt).2.1 = a := by
  have h : ¬ (n > BlockSize) := by omega
  obtain ⟨rt1, hpush, _, _⟩ := push_back_refused grow a.free_blocks p rt hfull hs
  simp [Buffered.deallocate, h, hpush]

/-- C10 (the code falls short of the claim): `deallocate(p, n)` with
`n ≤ BlockSize` can fail.  On a freshly constructed allocator (`BlockSize = 10`),
whose vector has no buffer yet, `deallocate(7, 1)` with a provider that refuses
the buffer ends in `std::terminate` and `7` is not appended.  The same happens
under correct usage of one allocator (`BlockSize = 2`): after four
`allocate(1)` and the release of `100` and `102`, the buffer of two pointers is
full, and the release of `101` ends in `std::terminate` when the provider refuses
the larger buffer. -/
theorem deallocate_terminates_when_growth_refused :
    Buffered.deallocate Buffered.doubling 10 7 1 Buffered.MyAllocator.fresh ⟨[], [], 0⟩
        = (.terminated, Buffered.MyAllocator.fresh, ⟨[], [], 0⟩)
      ∧ Buffered.run Buffered.doubling 2 4 (Buffered.World.init (Runtime.granting 6 100))
          [.alloc 1, .alloc 1, .alloc 1, .alloc 1, .dealloc 100 1, .dealloc 102 1]
        = some ⟨⟨⟨[100, 102], 2, some 103⟩⟩,
            ⟨[(100, 4), (102, 4), (103, 16), (101, 4), (104, 4)], [], 2⟩,
            [104, 101], [100, 102, 101, 104], 0⟩
      ∧ Buffered.deallocate Buffered.doubling 2 101 1 ⟨⟨[100, 102], 2, some 103⟩⟩
          ⟨[(100, 4), (102, 4), (103, 16), (101, 4), (104, 4)], [], 2⟩
        = (.terminated, ⟨⟨[100, 102], 2, some 103⟩⟩,
            ⟨[(100, 4), (102, 4), (103, 16), (101, 4), (104, 4)], [], 2⟩) := by
  refine ⟨by decide, by decide, by decide⟩

/-! ## C6: the threshold, on both paths -/

theorem buffered_allocate_oversized (grow : Nat → Nat) (BlockSize sizeofT n : Nat)
    (a : Buffered.MyAllocator) (rt : Runtime) (hn : BlockSize < n) :
    Buffered.allocate grow BlockSize sizeofT n a rt
      = match operatorNew ((n * sizeofT) % SIZE_MOD) rt with
        | (none, rt1) => (.outOfMemory, a, rt1, [])
        | (some q, rt1) => (.ok q, a, rt1, []) := by
  have h : n > BlockSize := hn
  simp [Buffered.allocate, h]

/-- With a full buffer that is a reserved block (or no buffer yet) and a provider
that grants the larger buffer, a pooled `deallocate` returns and appends `p`. -/
theorem buffered_deallocate_granted (grow : Nat → Nat) (BlockSize : Nat) (p : Addr) (n : Nat)
    (a : Buffered.MyAllocator) (rt : Runtime) (hn : n ≤ BlockSize)
    (hfull : ¬ a.free_blocks.items.length < a.free_blocks.capacity)
    (hbuf : ∀ b, a.free_blocks.buffer = some b → b ∈ rt.addrs)
    (hs : 0 < rt.successes) :
    (Buffered.deallocate grow BlockSize p n a rt).1 = .returned
      ∧ (Buffered.deallocate grow BlockSize p n a rt).2.1.free_blocks.items
          = a.free_blocks.items ++ [p] := by
  have h : ¬ (n > BlockSize) := by omega
  have hk : Buffered.Kept 0 [] a.free_blocks rt :=
    ⟨fun q hq => by simp at hq, fun b hb => ⟨hbuf b hb, by simp⟩⟩
  cases hpush : Buffered.PtrVector.push_back grow a.free_blocks p rt with
  | mk r rest =>
    obtain ⟨v, rt1⟩ := rest
    obtain ⟨hu, _, _, hitems, _⟩ :=
      push_back_kept grow 0 [] a.free_blocks v p rt rt1 r hk hpush
    cases r with
    | ok u =>
      simp only [Buffered.deallocate, h, if_false, hpush]
      exact ⟨trivial, hitems rfl⟩
    | outOfMemory =>
      obtain ⟨b, rt2, hnew, _⟩ :=
        operatorNew_of_successes_pos
          ((grow a.free_blocks.capacity * Buffered.sizeofPointer) % SIZE_MOD) rt hs
      unfold Buffered.PtrVector.push_back at hpush
      simp only [hfull, if_false, hnew] at hpush
      split at hpush
      · simp at hpush
      · split at hpush <;> simp at hpush
    | undefined => exact absurd rfl hu

/-- On a non-empty free list the two descriptions of `allocate` agree: same
outcome, same elements left, same runtime; the buffer is not touched and no pool
block is reserved. -/
theorem buffered_allocate_agrees (grow : Nat → Nat) (BlockSize sizeofT n : Nat)
    (a : Buffered.MyAllocator) (rt : Runtime) (hne : a.free_blocks.items ≠ []) :
    Buffered.allocate grow BlockSize sizeofT n a rt
      = ((allocate BlockSize sizeofT n ⟨a.free_blocks.items⟩ rt).1,
          ⟨⟨(allocate BlockSize sizeofT n ⟨a.free_blocks.items⟩ rt).2.1.free_blocks,
            a.free_blocks.capacity, a.free_blocks.buffer⟩⟩,
          (allocate BlockSize sizeofT n ⟨a.free_blocks.items⟩ rt).2.2, []) := by
  by_cases hn : n > BlockSize
  · rw [buffered_allocate_oversized grow BlockSize sizeofT n a rt hn,
      allocate_oversized BlockSize sizeofT n ⟨a.free_blocks.items⟩ rt hn]
    split <;> rfl
  · have he : a.free_blocks.items.isEmpty = false := by
      cases hF : a.free_blocks.items with
      | nil => exact absurd hF hne
      | cons x xs => rfl
    simp only [Buffered.allocate, allocate, hn, if_false, he, Bool.false_eq_true,
      Buffered.takeBack, takeBack, List.getLast?_eq_getLast _ hne]

/-- With room in the buffer the two descriptions of a pooled `deallocate` agree. -/
theorem buffered_deallocate_agrees (grow : Nat → Nat) (BlockSize : Nat) (p : Addr) (n : Nat)
    (a : Buffered.MyAllocator) (rt : Runtime) (hn : n ≤ BlockSize)
    (hroom : a.free_blocks.items.length < a.free_blocks.capacity) :
    (deallocate BlockSize p n ⟨a.free_blocks.items⟩ rt).1 = .ok ()
      ∧ Buffered.deallocate grow BlockSize p n a rt
        = (.returned,
            ⟨⟨(deallocate BlockSize p n ⟨a.free_blocks.items⟩ rt).2.1.free_blocks,
              a.free_blocks.capacity, a.free_blocks.buffer⟩⟩,
            (deallocate BlockSize p n ⟨a.free_blocks.items⟩ rt).2.2) := by
  rw [deallocate_pooled BlockSize p n ⟨a.free_blocks.items⟩ rt hn,
    buffered_deallocate_room grow BlockSize p n a rt hn hroom]
  exact ⟨rfl, rfl⟩
